import Mathlib

/-!
# Verification of the `harmony` pending-pool engine

Shallow embedding of the mempool-mirroring engine:
* `MemPoolTx` and the msgpack-style codec (`app/data` sources),
* the pending-pool single-writer actor with its four indexes
  (`PendingPool.Start` in `app/data`),
* the pruner classification pipeline (`PendingPool.Prune`),
* the peer-gossip writer's origin suppression (`app/networking`),
* the snapshot poller (`app/mempool/poll.go`) and the configuration
  readers (`app/config/config.go`).

Hashes, addresses, gas prices, nonces and timestamps are modelled as `Nat`;
peer identifiers and pool labels as `String`.  Go maps are modelled as
association lists with unique keys, Go slices as `List`.
-/

namespace Harmony

/-- The in-memory transaction record (`MemPoolTx` in `app/data`).  Numeric
fields (`common.Hash`, `common.Address`, `hexutil.Uint64`, `hexutil.Big`,
`time.Time`) are abstracted to `Nat`; `Pool` and `ReceivedFrom` stay strings.
Only the fields the verified operations touch are kept. -/
structure MemPoolTx where
  Hash : Nat
  From : Nat
  Nonce : Nat
  GasPrice : Nat
  PendingFrom : Nat
  QueuedAt : Nat
  DroppedAt : Nat
  ConfirmedAt : Nat
  Pool : String
  ReceivedFrom : String
  deriving Repr, DecidableEq

/-- Status values carried by a `TxStatus` (the `DROPPED` / `CONFIRMED` /
`UNSTUCK` constants of the `app/data` package; the file declaring them is
not part of the sources, the three reasons are those of the spec). -/
inductive TxStatusVal where
  | DROPPED
  | CONFIRMED
  | UNSTUCK
  deriving Repr, DecidableEq

/-- `TxStatus` — a hash paired with the reason it is leaving the pool. -/
structure TxStatus where
  Hash : Nat
  Status : TxStatusVal
  deriving Repr, DecidableEq

/-! ## Sorted indexes

Modelled from the spec (§3, §4.2): the sorted-slice implementation
(`TxList`, `Insert`, `Remove`) is not among the sources, only its callers
are.  `asc_by_gas` is ordered ascending by `(gas_price, pending_from,
hash)`, `desc_by_gas` descending, `by_sender` ascending by
`(nonce, gas_price desc, hash)`.  `Insert` keeps the order, `Remove`
removes the (single) element carrying the given tx's hash. -/

/-- Ascending gas-price order: lexicographic on
`(GasPrice, PendingFrom, Hash)`. -/
def ascLE (a b : MemPoolTx) : Prop :=
  a.GasPrice < b.GasPrice ∨
    (a.GasPrice = b.GasPrice ∧
      (a.PendingFrom < b.PendingFrom ∨
        (a.PendingFrom = b.PendingFrom ∧ a.Hash ≤ b.Hash)))

instance : DecidableRel ascLE := fun a b => by
  unfold ascLE; infer_instance

/-- Descending gas-price order: lexicographic on
`(GasPrice desc, PendingFrom desc, Hash)`. -/
def descLE (a b : MemPoolTx) : Prop :=
  b.GasPrice < a.GasPrice ∨
    (b.GasPrice = a.GasPrice ∧
      (b.PendingFrom < a.PendingFrom ∨
        (b.PendingFrom = a.PendingFrom ∧ a.Hash ≤ b.Hash)))

instance : DecidableRel descLE := fun a b => by
  unfold descLE; infer_instance

/-- Sender-index order: lexicographic on `(Nonce, GasPrice desc, Hash)`. -/
def fromLE (a b : MemPoolTx) : Prop :=
  a.Nonce < b.Nonce ∨
    (a.Nonce = b.Nonce ∧
      (b.GasPrice < a.GasPrice ∨
        (b.GasPrice = a.GasPrice ∧ a.Hash ≤ b.Hash)))

instance : DecidableRel fromLE := fun a b => by
  unfold fromLE; infer_instance

/-- `Insert` of the sorted-slice package, modelled from the spec:
order-preserving insertion. -/
def insertSorted (r : MemPoolTx → MemPoolTx → Prop) [DecidableRel r]
    (tx : MemPoolTx) : List MemPoolTx → List MemPoolTx
  | [] => [tx]
  | y :: ys => if r tx y then tx :: y :: ys else y :: insertSorted r tx ys

/-- `Remove` of the sorted-slice package, modelled from the spec:
drops the first (under the pool invariant: the only) element whose hash
matches. -/
def removeFirstByHash : List MemPoolTx → Nat → List MemPoolTx
  | [], _ => []
  | t :: ts, h => if t.Hash = h then ts else t :: removeFirstByHash ts h

/-- Occurrences of hash `h` in a tx list. -/
def countHash (l : List MemPoolTx) (h : Nat) : Nat :=
  l.countP (fun t => t.Hash == h)

/-- Occurrences of hash `h` among the transactions of sender `a`. -/
def countFromHash (l : List MemPoolTx) (a h : Nat) : Nat :=
  l.countP (fun t => t.From == a && t.Hash == h)

/-! ## The `Transactions` map and the `TxsFromAddress` map -/

/-- Lookup in the `Transactions` map (`map[common.Hash]*MemPoolTx`),
modelled as a scan of the value list. -/
def lookupTx (l : List MemPoolTx) (h : Nat) : Option MemPoolTx :=
  l.find? (fun t => t.Hash == h)

/-- Go `delete(m, h)`: drop the binding for key `h` (modelled on the
value list, removing every entry carrying the key). -/
def deleteTxMap : List MemPoolTx → Nat → List MemPoolTx
  | [], _ => []
  | t :: ts, h => if t.Hash = h then deleteTxMap ts h else t :: deleteTxMap ts h

/-- Go map assignment `m[tx.Hash] = tx`: replaces any existing binding. -/
def insertTxMap (l : List MemPoolTx) (tx : MemPoolTx) : List MemPoolTx :=
  tx :: deleteTxMap l tx.Hash

/-- Lookup in `TxsFromAddress` (`map[common.Address]TxList`); `none`
models the key being absent. -/
def lookupFromA (m : List (Nat × List MemPoolTx)) (a : Nat) :
    Option (List MemPoolTx) :=
  (m.find? (fun p => p.1 == a)).map (·.2)

/-- Drop the binding for address `a`. -/
def removeFromA : List (Nat × List MemPoolTx) → Nat →
    List (Nat × List MemPoolTx)
  | [], _ => []
  | p :: ps, a => if p.1 = a then removeFromA ps a else p :: removeFromA ps a

/-- Go map assignment `m[a] = v` on `TxsFromAddress`. -/
def setFromA (m : List (Nat × List MemPoolTx)) (a : Nat)
    (v : List MemPoolTx) : List (Nat × List MemPoolTx) :=
  (a, v) :: removeFromA m a

/-- The sender index read with Go's zero-value default (a nil slice for
an absent key). -/
def byFromD (m : List (Nat × List MemPoolTx)) (a : Nat) : List MemPoolTx :=
  (lookupFromA m a).getD []

/-! ## Pending pool state and the actor's mutations (`PendingPool.Start`) -/

/-- The mutable state owned by the pending-pool actor.  Channels, the
lock, the RPC and pubsub clients are concurrency plumbing and are not
part of the state the requests act upon. -/
structure PendingPool where
  Transactions : List MemPoolTx
  TxsFromAddress : List (Nat × List MemPoolTx)
  DroppedTxs : List Nat
  AscTxsByGasPrice : List MemPoolTx
  DescTxsByGasPrice : List MemPoolTx
  deriving Repr, DecidableEq

/-- The freshly constructed (empty) pending pool. -/
def emptyPendingPool : PendingPool :=
  { Transactions := []
    TxsFromAddress := []
    DroppedTxs := []
    AscTxsByGasPrice := []
    DescTxsByGasPrice := [] }

/-- Events the actor publishes on the pubsub bridge
(`PublishAdded` / `PublishRemoved`). -/
inductive PubEvent where
  | added (tx : MemPoolTx)
  | removed (tx : MemPoolTx)
  deriving Repr, DecidableEq

/-- The `addTx` closure of `PendingPool.Start`: insert into both sorted
indexes, into the sender index (allocating it if needed), and into the
primary map. -/
def addTxInner (s : PendingPool) (tx : MemPoolTx) : PendingPool :=
  { s with
    AscTxsByGasPrice := insertSorted ascLE tx s.AscTxsByGasPrice
    DescTxsByGasPrice := insertSorted descLE tx s.DescTxsByGasPrice
    TxsFromAddress :=
      setFromA s.TxsFromAddress tx.From
        (insertSorted fromLE tx (byFromD s.TxsFromAddress tx.From))
    Transactions := insertTxMap s.Transactions tx }

/-- The `removeTx` closure of `PendingPool.Start`: remove from both
sorted indexes, from the sender index, and delete from the primary map. -/
def removeTxInner (s : PendingPool) (tx : MemPoolTx) : PendingPool :=
  { s with
    AscTxsByGasPrice := removeFirstByHash s.AscTxsByGasPrice tx.Hash
    DescTxsByGasPrice := removeFirstByHash s.DescTxsByGasPrice tx.Hash
    TxsFromAddress :=
      setFromA s.TxsFromAddress tx.From
        (removeFirstByHash (byFromD s.TxsFromAddress tx.From) tx.Hash)
    Transactions := deleteTxMap s.Transactions tx.Hash }

/-- The `dropTx` closure: remove the victim and record its hash in the
`DroppedTxs` tombstone set. -/
def dropTx (s : PendingPool) (tx : MemPoolTx) : PendingPool :=
  let s' := removeTxInner s tx
  { s' with DroppedTxs := tx.Hash :: s'.DroppedTxs }

/-- The stamping `txAdder` performs before inserting:
`tx.PendingFrom = time.Now().UTC(); tx.Pool = "pending"`. -/
def stampTx (now : Nat) (tx : MemPoolTx) : MemPoolTx :=
  { tx with PendingFrom := now, Pool := "pending" }

/-- The `txAdder` closure serving an `AddRequest`, with `capacity`
standing for `config.GetPendingPoolSize()` and `now` for the
`time.Now().UTC()` stamp.  Returns `none` where the Go code would panic
(indexing an empty `AscTxsByGasPrice`); otherwise the new state, the
boolean reply and the published events. -/
def txAdder (capacity : Nat) (now : Nat) (s : PendingPool)
    (tx : MemPoolTx) : Option (PendingPool × Bool × List PubEvent) :=
  if (lookupTx s.Transactions tx.Hash).isSome then
    some (s, false, [])
  else if s.DroppedTxs.contains tx.Hash then
    some (s, false, [])
  else if s.AscTxsByGasPrice.length + 1 > capacity then
    match s.AscTxsByGasPrice.head? with
    | none => none
    | some victim =>
        some (addTxInner (dropTx s victim) (stampTx now tx), true,
          [.added (stampTx now tx)])
  else
    some (addTxInner s (stampTx now tx), true, [.added (stampTx now tx)])

/-- The `txRemover` closure serving a `RemoveRequest`. -/
def txRemover (now : Nat) (s : PendingPool) (txStat : TxStatus) :
    PendingPool × Bool × List PubEvent :=
  match lookupTx s.Transactions txStat.Hash with
  | none => (s, false, [])
  | some tx =>
      let tx' :=
        if txStat.Status = .DROPPED then
          { tx with Pool := "dropped", DroppedAt := now }
        else if txStat.Status = .CONFIRMED then
          { tx with Pool := "confirmed", ConfirmedAt := now }
        else
          tx
      (removeTxInner s tx', true, [.removed tx'])

/-- A mutation request accepted by the actor's event loop (the
`AddTxChan` / `RemoveTxChan` cases of `PendingPool.Start`); `now` models
the wall-clock instant at which the request is served. -/
inductive Request where
  | addReq (now : Nat) (tx : MemPoolTx)
  | removeReq (now : Nat) (txStat : TxStatus)
  deriving Repr, DecidableEq

/-- One iteration of the actor loop on a mutation request. -/
def step (capacity : Nat) (s : PendingPool) :
    Request → Option (PendingPool × Bool × List PubEvent)
  | .addReq now tx => txAdder capacity now s tx
  | .removeReq now txStat => some (txRemover now s txStat)

/-- Run a request sequence, collecting the state after each request;
`none` if any request panics the actor. -/
def runPool (capacity : Nat) (s : PendingPool) :
    List Request → Option (List PendingPool)
  | [] => some []
  | r :: rs =>
      match step capacity s r with
      | none => none
      | some (s', _, _) => (runPool capacity s' rs).map (s' :: ·)

/-- Run a request sequence, returning only the final state. -/
def runFinal (capacity : Nat) (s : PendingPool) :
    List Request → Option PendingPool
  | [] => some s
  | r :: rs =>
      match step capacity s r with
      | none => none
      | some (s', _, _) => runFinal capacity s' rs

/-- A sequence of `Add` requests, each a `(now, tx)` pair. -/
def addReqs (adds : List (Nat × MemPoolTx)) : List Request :=
  adds.map (fun p => .addReq p.1 p.2)

/-- The records the pool will hold for a sequence of adds: each tx
stamped at its arrival instant. -/
def stampList (adds : List (Nat × MemPoolTx)) : List MemPoolTx :=
  adds.map (fun p => stampTx p.1 p.2)

/-! ## Read-only request handlers of the actor loop -/

/-- The `ASC` / `DESC` constants of a `ListRequest`. -/
inductive SortOrder where
  | ASC
  | DESC
  deriving Repr, DecidableEq

/-- Go's `copied := make([]*MemPoolTx, n); copy(copied, txs)` — an
element-wise copy of the reference slice. -/
def copyTxSlice : List MemPoolTx → List MemPoolTx
  | [] => []
  | t :: ts => t :: copyTxSlice ts

/-- The `ListTxsChan` handler of `PendingPool.Start`: reply `nil` on an
empty index, otherwise a copy of the requested sorted index. -/
def listTxsHandler (s : PendingPool) : SortOrder → Option (List MemPoolTx)
  | .ASC =>
      if s.AscTxsByGasPrice.length = 0 then none
      else some (copyTxSlice s.AscTxsByGasPrice)
  | .DESC =>
      if s.DescTxsByGasPrice.length = 0 then none
      else some (copyTxSlice s.DescTxsByGasPrice)

/-- The `TxsFromAChan` handler: reply `nil` when the address has no
entry or an empty entry, otherwise a copy of the sender index. -/
def txsFromAHandler (s : PendingPool) (a : Nat) : Option (List MemPoolTx) :=
  match lookupFromA s.TxsFromAddress a with
  | some txs => if txs.length = 0 then none else some (copyTxSlice txs)
  | none => none

/-- `DescListTxs` as seen by a caller: the `nil` reply is Go's empty
slice. -/
def DescListTxs (s : PendingPool) : List MemPoolTx :=
  (listTxsHandler s .DESC).getD []

/-- `AscListTxs` as seen by a caller. -/
def AscListTxs (s : PendingPool) : List MemPoolTx :=
  (listTxsHandler s .ASC).getD []

/-- Go's slice expression `l[:x]`: defined only for `x ≤ cap(l)`
(the replies have capacity equal to their length), otherwise a runtime
panic, modelled as `none`. -/
def sliceTo (l : List MemPoolTx) (x : Nat) : Option (List MemPoolTx) :=
  if x ≤ l.length then some (l.take x) else none

/-- `PendingPool.TopXWithHighGasPrice`: `return p.DescListTxs()[:x]`. -/
def TopXWithHighGasPrice (s : PendingPool) (x : Nat) :
    Option (List MemPoolTx) :=
  sliceTo (DescListTxs s) x

/-- `PendingPool.TopXWithLowGasPrice`: `return p.AscListTxs()[:x]`. -/
def TopXWithLowGasPrice (s : PendingPool) (x : Nat) :
    Option (List MemPoolTx) :=
  sliceTo (AscListTxs s) x

/-! ## The msgpack-style codec (`MemPoolTx.ToMessagePack` /
`FromMessagePack`)

Modelled from the spec (§4.1): the `msgpack` library itself is an
external dependency, specified as a self-describing format of
length-prefixed fields.  Numeric fields become single symbols of the
wire alphabet, strings become a length followed by their character
codes. -/

/-- Encode a string as its length followed by its character codes. -/
def encodeString (s : String) : List Nat :=
  s.data.length :: s.data.map Char.toNat

/-- Decode a length-prefixed string, returning the remainder of the
input. -/
def decodeString : List Nat → Option (String × List Nat)
  | [] => none
  | n :: rest =>
      if n ≤ rest.length then
        some (String.mk ((rest.take n).map Char.ofNat), rest.drop n)
      else
        none

/-- The wire encoding of a `MemPoolTx`: the numeric fields in struct
order, then the two string fields. -/
def encodeMemPoolTx (m : MemPoolTx) : List Nat :=
  m.Hash :: m.From :: m.Nonce :: m.GasPrice :: m.PendingFrom ::
    m.QueuedAt :: m.DroppedAt :: m.ConfirmedAt ::
      (encodeString m.Pool ++ encodeString m.ReceivedFrom)

/-- Decode a `MemPoolTx` from the wire, into a fresh record. -/
def decodeMemPoolTx (data : List Nat) : Option MemPoolTx :=
  match data with
  | h :: f :: n :: g :: p :: q :: d :: c :: rest =>
      match decodeString rest with
      | none => none
      | some (pool, rest1) =>
          match decodeString rest1 with
          | none => none
          | some (recv, rest2) =>
              if rest2 = [] then
                some
                  { Hash := h, From := f, Nonce := n, GasPrice := g
                    PendingFrom := p, QueuedAt := q, DroppedAt := d
                    ConfirmedAt := c, Pool := pool, ReceivedFrom := recv }
              else
                none
  | _ => none

/-- `MemPoolTx.ToMessagePack`: `msgpack.Marshal(m)`. -/
def ToMessagePack (m : MemPoolTx) : List Nat :=
  encodeMemPoolTx m

/-- Modelled from the spec: the msgpack library's `Unmarshal` refuses a
nil destination pointer with a `Decode(nil ...)` error; with a non-nil
destination it decodes the bytes into the record. -/
def msgpackUnmarshal (dest : Option MemPoolTx) (data : List Nat) :
    Except String MemPoolTx :=
  match dest with
  | none => .error "msgpack: Decode(nil *MemPoolTx)"
  | some _ =>
      match decodeMemPoolTx data with
      | some tx => .ok tx
      | none => .error "msgpack: decode failure"

/-- `FromMessagePack` as written in the source: `var tx *MemPoolTx`
(a nil pointer) is handed to `msgpack.Unmarshal`. -/
def FromMessagePack (data : List Nat) : Except String MemPoolTx :=
  msgpackUnmarshal none data

instance : Inhabited MemPoolTx :=
  ⟨{ Hash := 0, From := 0, Nonce := 0, GasPrice := 0, PendingFrom := 0
     QueuedAt := 0, DroppedAt := 0, ConfirmedAt := 0, Pool := ""
     ReceivedFrom := "" }⟩

/-- `FromMessagePack` as the spec mandates it: decode into a fresh
record. -/
def FromMessagePackFresh (data : List Nat) : Except String MemPoolTx :=
  msgpackUnmarshal (some default) data

/-! ## Peer gossip writer (`WriteTo` in `app/networking`) -/

/-- Modelled from the spec: `graph.UnmarshalPubSubMessage` (the `graph`
package is not among the sources) decodes a pubsub payload into a fresh
`MemPoolTx`, `nil` on failure. -/
def UnmarshalPubSubMessage (data : List Nat) : Option MemPoolTx :=
  decodeMemPoolTx data

/-- Little-endian `u32` length prefix written by the gossip writer. -/
def u32LE (n : Nat) : List Nat :=
  [n % 256, n / 256 % 256, n / 65536 % 256, n / 16777216 % 256]

/-- The frame written for one payload: `u32 LE length ‖ data`. -/
def mkChunk (data : List Nat) : List Nat :=
  u32LE data.length ++ data

/-- The `process` closure of `WriteTo` for the writer task of peer
`peerId`: drop undecodable payloads, drop payloads whose tx originated
from this very peer, otherwise frame and write. -/
def processMsg (peerId : String) (data : List Nat) : Option (List Nat) :=
  match UnmarshalPubSubMessage data with
  | none => none
  | some tx =>
      if tx.ReceivedFrom = peerId then none
      else some (mkChunk data)

/-- The frames a writer task emits for a sequence of delivered pubsub
payloads. -/
def writerEmits (peerId : String) (msgs : List (List Nat)) :
    List (List Nat) :=
  msgs.filterMap (processMsg peerId)

/-! ## Pruner classification (`PendingPool.Prune`) -/

/-- Modelled from the spec (§4.5, §7): `MemPoolTx.IsDropped` is not
among the sources; it probes the RPC node and, like every probe in
`app/data` (`IsNonceExhausted`, `IsUnstuck`), returns `(false, err)` on
a transient RPC error.  The probe outcome is abstracted as
`Except String Bool`. -/
def IsDroppedResult (rpcOutcome : Except String Bool) :
    Bool × Option String :=
  match rpcOutcome with
  | .ok b => (b, none)
  | .error e => (false, some e)

/-- The worker-pool job body of `PendingPool.Prune`:
`dropped, _ := tx.IsDropped(ctx, p.RPC)` — the error is discarded —
then `DROPPED` if dropped, else `CONFIRMED`. -/
def pruneJobStatus (h : Nat) (rpcOutcome : Except String Bool) : TxStatus :=
  let dropped := (IsDroppedResult rpcOutcome).1
  if dropped then ⟨h, .DROPPED⟩ else ⟨h, .CONFIRMED⟩

/-- The `internalChan` consumer of `PendingPool.Prune`: a `Remove`
request is sent to the pool actor exactly when the classified status is
`CONFIRMED` or `DROPPED`. -/
def pruneEmitsRemove (ts : TxStatus) : Bool :=
  ts.Status == .CONFIRMED || ts.Status == .DROPPED

/-! ## Configuration readers and the snapshot poller -/

/-- A `.env` configuration, modelled as key/value pairs;
`config.Get` returns the empty string for a missing key. -/
def configGet (cfg : List (String × String)) (key : String) : String :=
  ((cfg.find? (fun p => p.1 == key)).map (·.2)).getD ""

/-- Decimal digit accumulation of `strconv.ParseUint`. -/
def parseUintDigits : List Char → Nat → Option Nat
  | [], acc => some acc
  | c :: cs, acc =>
      if c.isDigit then
        parseUintDigits cs (acc * 10 + (c.toNat - 48))
      else
        none

/-- `strconv.ParseUint(s, 10, 64)`: the empty string, any string with a
non-digit character, and any value outside the 64-bit range fail. -/
def parseUint (s : String) : Option Nat :=
  if s.data = [] then none
  else
    match parseUintDigits s.data 0 with
    | none => none
    | some v => if v < 2 ^ 64 then some v else none

/-- `config.GetMemPoolPollingPeriod`: parse the configured value as an
unsigned integer, falling back to 1000 ms when it is unset or
unparsable. -/
def GetMemPoolPollingPeriod (cfg : List (String × String)) : Nat :=
  match parseUint (configGet cfg "MemPoolPollingPeriod") with
  | some n => n
  | none => 1000

/-- An abstract `txpool_content` result
(`map[string]map[string]map[string]*MemPoolTx`). -/
abbrev TxPoolContent : Type :=
  List (String × List (String × List (String × MemPoolTx)))

/-- What one iteration of `PollTxPoolContent` decides to do. -/
inductive PollAction where
  | processAndSleep (result : TxPoolContent) (ms : Nat)
  | exitSilently
  | signalSupervisorAndExit

/-- `strings.Contains(err.Error(), "context canceled")`. -/
def errIsContextCanceled (e : String) : Bool :=
  decide (List.IsInfix "context canceled".data e.data)

/-- One iteration of `PollTxPoolContent` (`app/mempool/poll.go`): on a
successful RPC call, process the result and sleep for the configured
period; on an error mentioning `context canceled`, exit without closing
the sentinel channel; on any other error, close the sentinel channel
(`close(comm)`) and exit. -/
def pollTxPoolContentStep (cfg : List (String × String))
    (outcome : Except String TxPoolContent) : PollAction :=
  match outcome with
  | .ok result => .processAndSleep result (GetMemPoolPollingPeriod cfg)
  | .error e =>
      if errIsContextCanceled e then .exitSilently
      else .signalSupervisorAndExit

/-! ## The single-writer invariant

The inductive strengthening of the spec's §3 invariants: the primary
map has unique keys, every index agrees with it occurrence-wise, every
entry of the ascending index is the very record the map stores (Go
shares one pointer between all structures), and tombstoned hashes are
absent. -/

/-- The inductive invariant preserved by every accepted request. -/
structure Inv (s : PendingPool) : Prop where
  uniq : ∀ h, countHash s.Transactions h ≤ 1
  ascCount : ∀ h,
    countHash s.AscTxsByGasPrice h = countHash s.Transactions h
  descCount : ∀ h,
    countHash s.DescTxsByGasPrice h = countHash s.Transactions h
  fromCount : ∀ a h,
    countHash (byFromD s.TxsFromAddress a) h =
      countFromHash s.Transactions a h
  ascEntries : ∀ t ∈ s.AscTxsByGasPrice,
    lookupTx s.Transactions t.Hash = some t
  droppedGone : ∀ h ∈ s.DroppedTxs, countHash s.Transactions h = 0

/-- The §3 pool invariants exactly as the spec's claim states them: a
hash is a key of `Transactions` iff it occurs exactly once in each
sorted index and exactly once in its sender's index; tombstoned hashes
are not keys. -/
def PoolInvariantsOk (s : PendingPool) : Prop :=
  (∀ h : Nat, (lookupTx s.Transactions h).isSome ↔
    (countHash s.AscTxsByGasPrice h = 1 ∧
      countHash s.DescTxsByGasPrice h = 1)) ∧
  (∀ tx ∈ s.Transactions,
    countHash (byFromD s.TxsFromAddress tx.From) tx.Hash = 1) ∧
  (∀ h a, lookupTx s.Transactions h = none →
    countHash (byFromD s.TxsFromAddress a) h = 0) ∧
  (∀ h ∈ s.DroppedTxs, lookupTx s.Transactions h = none)

/-! ## Concrete fixtures used to instantiate the theorems -/

/-- A snapshot transaction as the dispatcher would hand it to the pool:
only the immutable fields are populated. -/
def fixtureTx (h f n g : Nat) : MemPoolTx :=
  { Hash := h, From := f, Nonce := n, GasPrice := g, PendingFrom := 0
    QueuedAt := 0, DroppedAt := 0, ConfirmedAt := 0, Pool := ""
    ReceivedFrom := "" }

/-- Fixture run for the invariant claim: capacity 1, two adds (the
second evicting the first) and one confirmed removal. -/
def fixtureReqs : List Request :=
  [.addReq 1 (fixtureTx 5 1 0 10), .addReq 2 (fixtureTx 6 2 0 20),
   .removeReq 3 ⟨6, .CONFIRMED⟩]

/-- The pool state after the first fixture request. -/
def fixtureState1 : PendingPool :=
  { Transactions := [stampTx 1 (fixtureTx 5 1 0 10)]
    TxsFromAddress := [(1, [stampTx 1 (fixtureTx 5 1 0 10)])]
    DroppedTxs := []
    AscTxsByGasPrice := [stampTx 1 (fixtureTx 5 1 0 10)]
    DescTxsByGasPrice := [stampTx 1 (fixtureTx 5 1 0 10)] }

/-- The pool state after the second fixture request: tx 5 evicted. -/
def fixtureState2 : PendingPool :=
  { Transactions := [stampTx 2 (fixtureTx 6 2 0 20)]
    TxsFromAddress := [(2, [stampTx 2 (fixtureTx 6 2 0 20)]), (1, [])]
    DroppedTxs := [5]
    AscTxsByGasPrice := [stampTx 2 (fixtureTx 6 2 0 20)]
    DescTxsByGasPrice := [stampTx 2 (fixtureTx 6 2 0 20)] }

/-- The pool state after the third fixture request: tx 6 confirmed. -/
def fixtureState3 : PendingPool :=
  { Transactions := []
    TxsFromAddress := [(2, []), (1, [])]
    DroppedTxs := [5]
    AscTxsByGasPrice := []
    DescTxsByGasPrice := [] }

/-- Fixture adds for the eviction claim: capacity 2, gas prices
10, 20, 30 arriving in ascending order (the spec's scenario 3). -/
def fixtureAdds : List (Nat × MemPoolTx) :=
  [(1, fixtureTx 10 1 0 10), (2, fixtureTx 20 1 1 20),
   (3, fixtureTx 30 2 0 30)]

/-- The final pool of the eviction fixture: the two highest-priced txs
remain, the hash of the 10-gas-price tx is tombstoned. -/
def fixtureEvictionFinal : PendingPool :=
  { Transactions := [stampTx 3 (fixtureTx 30 2 0 30),
      stampTx 2 (fixtureTx 20 1 1 20)]
    TxsFromAddress := [(2, [stampTx 3 (fixtureTx 30 2 0 30)]),
      (1, [stampTx 2 (fixtureTx 20 1 1 20)])]
    DroppedTxs := [10]
    AscTxsByGasPrice := [stampTx 2 (fixtureTx 20 1 1 20),
      stampTx 3 (fixtureTx 30 2 0 30)]
    DescTxsByGasPrice := [stampTx 3 (fixtureTx 30 2 0 30),
      stampTx 2 (fixtureTx 20 1 1 20)] }

/-- A pool whose tombstone set already holds hash 7. -/
def fixtureTombstoned : PendingPool :=
  { Transactions := []
    TxsFromAddress := []
    DroppedTxs := [7]
    AscTxsByGasPrice := []
    DescTxsByGasPrice := [] }

/-- A gossiped transaction whose origin is peer `peerA`. -/
def fixtureGossipTx : MemPoolTx :=
  { Hash := 1, From := 2, Nonce := 3, GasPrice := 4, PendingFrom := 5
    QueuedAt := 6, DroppedAt := 0, ConfirmedAt := 0, Pool := "pending"
    ReceivedFrom := "peerA" }

/-- A capacity-1 pool holding tx 6 with hash 5 already tombstoned. -/
def fixtureFullPool : PendingPool :=
  { Transactions := [stampTx 2 (fixtureTx 6 2 0 20)]
    TxsFromAddress := [(2, [stampTx 2 (fixtureTx 6 2 0 20)])]
    DroppedTxs := [5]
    AscTxsByGasPrice := [stampTx 2 (fixtureTx 6 2 0 20)]
    DescTxsByGasPrice := [stampTx 2 (fixtureTx 6 2 0 20)] }

/-- `fixtureFullPool` after admitting tx 7: tx 6 evicted, its hash
joins the tombstones. -/
def fixtureFullPoolNext : PendingPool :=
  { Transactions := [stampTx 3 (fixtureTx 7 3 0 30)]
    TxsFromAddress := [(3, [stampTx 3 (fixtureTx 7 3 0 30)]), (2, [])]
    DroppedTxs := [6, 5]
    AscTxsByGasPrice := [stampTx 3 (fixtureTx 7 3 0 30)]
    DescTxsByGasPrice := [stampTx 3 (fixtureTx 7 3 0 30)] }

/-- A pool with one allocated-but-empty sender entry and one occupied
entry, for the query-handler claim. -/
def fixtureQueryPool : PendingPool :=
  { Transactions := [fixtureTx 9 2 0 50]
    TxsFromAddress := [(1, []), (2, [fixtureTx 9 2 0 50])]
    DroppedTxs := []
    AscTxsByGasPrice := [fixtureTx 9 2 0 50]
    DescTxsByGasPrice := [fixtureTx 9 2 0 50] }

/-! ## Counting lemmas for the index structures -/

theorem countHash_nil (h : Nat) : countHash [] h = 0 := rfl

theorem countHash_cons (t : MemPoolTx) (l : List MemPoolTx) (h : Nat) :
    countHash (t :: l) h = countHash l h + (if t.Hash = h then 1 else 0) := by
  simp [countHash, List.countP_cons]

theorem countHash_pos_of_mem {t : MemPoolTx} {l : List MemPoolTx}
    (ht : t ∈ l) (hh : t.Hash = h) : 0 < countHash l h := by
  unfold countHash
  rw [List.countP_pos]
  exact ⟨t, ht, by simp [hh]⟩

theorem countHash_eq_zero {l : List MemPoolTx} {h : Nat} :
    countHash l h = 0 ↔ ∀ t ∈ l, t.Hash ≠ h := by
  unfold countHash
  rw [List.countP_eq_zero]
  simp

theorem countHash_insertSorted (r : MemPoolTx → MemPoolTx → Prop)
    [DecidableRel r] (tx : MemPoolTx) (l : List MemPoolTx) (h : Nat) :
    countHash (insertSorted r tx l) h =
      countHash l h + (if tx.Hash = h then 1 else 0) := by
  induction l with
  | nil => simp [insertSorted, countHash_cons, countHash_nil]
  | cons y ys ih =>
      by_cases hr : r tx y
      · simp only [insertSorted, if_pos hr, countHash_cons]
      · simp only [insertSorted, if_neg hr, countHash_cons, ih]
        omega

theorem mem_insertSorted {r : MemPoolTx → MemPoolTx → Prop}
    [DecidableRel r] {tx t : MemPoolTx} {l : List MemPoolTx} :
    t ∈ insertSorted r tx l ↔ t = tx ∨ t ∈ l := by
  induction l with
  | nil => simp [insertSorted]
  | cons y ys ih =>
      by_cases hr : r tx y
      · simp [insertSorted, if_pos hr]
      · simp only [insertSorted, if_neg hr, List.mem_cons, ih]
        tauto

theorem countHash_removeFirstByHash_self (l : List MemPoolTx) (h : Nat) :
    countHash (removeFirstByHash l h) h = countHash l h - 1 := by
  induction l with
  | nil => simp [removeFirstByHash, countHash_nil]
  | cons t ts ih =>
      by_cases ht : t.Hash = h
      · simp [removeFirstByHash, if_pos ht, countHash_cons, ht]
      · simp only [removeFirstByHash, if_neg ht, countHash_cons, ih,
          if_neg ht]
        have : countHash ts h - 1 + 0 = countHash ts h + 0 - 1 := by omega
        omega

theorem countHash_removeFirstByHash_ne (l : List MemPoolTx) {h h' : Nat}
    (hne : h' ≠ h) :
    countHash (removeFirstByHash l h) h' = countHash l h' := by
  induction l with
  | nil => rfl
  | cons t ts ih =>
      by_cases ht : t.Hash = h
      · have : ¬ t.Hash = h' := by omega
        simp [removeFirstByHash, if_pos ht, countHash_cons, this]
      · simp [removeFirstByHash, if_neg ht, countHash_cons, ih]

theorem mem_of_mem_removeFirstByHash {t : MemPoolTx} {l : List MemPoolTx}
    {h : Nat} (ht : t ∈ removeFirstByHash l h) : t ∈ l := by
  induction l with
  | nil => simpa [removeFirstByHash] using ht
  | cons y ys ih =>
      by_cases hy : y.Hash = h
      · simp only [removeFirstByHash, if_pos hy] at ht
        exact List.mem_cons_of_mem _ ht
      · simp only [removeFirstByHash, if_neg hy, List.mem_cons] at ht
        rcases ht with rfl | ht
        · exact List.mem_cons_self _ _
        · exact List.mem_cons_of_mem _ (ih ht)

theorem countHash_deleteTxMap_self (l : List MemPoolTx) (h : Nat) :
    countHash (deleteTxMap l h) h = 0 := by
  induction l with
  | nil => rfl
  | cons t ts ih =>
      by_cases ht : t.Hash = h
      · simpa [deleteTxMap, if_pos ht] using ih
      · simpa [deleteTxMap, if_neg ht, countHash_cons, ht] using ih

theorem countHash_deleteTxMap_ne (l : List MemPoolTx) {h h' : Nat}
    (hne : h' ≠ h) :
    countHash (deleteTxMap l h) h' = countHash l h' := by
  induction l with
  | nil => rfl
  | cons t ts ih =>
      by_cases ht : t.Hash = h
      · have hne' : ¬ t.Hash = h' := by omega
        simp [deleteTxMap, if_pos ht, countHash_cons, hne', ih]
      · simp [deleteTxMap, if_neg ht, countHash_cons, ih]

theorem countHash_deleteTxMap_le (l : List MemPoolTx) (h h' : Nat) :
    countHash (deleteTxMap l h) h' ≤ countHash l h' := by
  by_cases hne : h' = h
  · subst hne
    simp [countHash_deleteTxMap_self]
  · rw [countHash_deleteTxMap_ne l hne]

theorem deleteTxMap_eq_self_of_count_zero {l : List MemPoolTx} {h : Nat}
    (h0 : countHash l h = 0) : deleteTxMap l h = l := by
  rw [countHash_eq_zero] at h0
  induction l with
  | nil => rfl
  | cons t ts ih =>
      have ht : ¬ t.Hash = h := h0 t (List.mem_cons_self _ _)
      rw [deleteTxMap, if_neg ht, ih]
      intro u hu
      exact h0 u (List.mem_cons_of_mem _ hu)

/-! ## Lookup lemmas for the `Transactions` map -/

theorem lookupTx_nil (h : Nat) : lookupTx [] h = none := rfl

theorem lookupTx_cons (t : MemPoolTx) (l : List MemPoolTx) (h : Nat) :
    lookupTx (t :: l) h = if t.Hash = h then some t else lookupTx l h := by
  by_cases ht : t.Hash = h
  · simp [lookupTx, List.find?_cons, ht]
  · simp [lookupTx, List.find?_cons, ht]

theorem lookupTx_isSome_iff {l : List MemPoolTx} {h : Nat} :
    (lookupTx l h).isSome ↔ 0 < countHash l h := by
  induction l with
  | nil => simp [lookupTx_nil, countHash_nil]
  | cons t ts ih =>
      rw [lookupTx_cons, countHash_cons]
      by_cases ht : t.Hash = h
      · simp [ht]
      · simp only [if_neg ht, ih]
        omega

theorem lookupTx_eq_none_iff {l : List MemPoolTx} {h : Nat} :
    lookupTx l h = none ↔ countHash l h = 0 := by
  rw [← Option.not_isSome_iff_eq_none, lookupTx_isSome_iff]
  omega

theorem lookupTx_some {l : List MemPoolTx} {h : Nat} {t : MemPoolTx}
    (hl : lookupTx l h = some t) : t ∈ l ∧ t.Hash = h := by
  have hmem := List.mem_of_find?_eq_some hl
  have hp := List.find?_some hl
  exact ⟨hmem, by simpa using hp⟩

theorem lookupTx_eq_some_of_unique {l : List MemPoolTx} {h : Nat}
    {t : MemPoolTx} (hu : countHash l h ≤ 1) (ht : t ∈ l)
    (hh : t.Hash = h) : lookupTx l h = some t := by
  induction l with
  | nil => cases ht
  | cons y ys ih =>
      rw [lookupTx_cons]
      rcases List.mem_cons.mp ht with rfl | hmem
      · rw [if_pos hh]
      · by_cases hy : y.Hash = h
        · exfalso
          rw [countHash_cons, if_pos hy] at hu
          have := countHash_pos_of_mem hmem hh
          omega
        · rw [if_neg hy]
          rw [countHash_cons, if_neg hy] at hu
          exact ih (by omega) hmem

theorem lookupTx_deleteTxMap_ne (l : List MemPoolTx) {h h0 : Nat}
    (hne : h ≠ h0) : lookupTx (deleteTxMap l h0) h = lookupTx l h := by
  induction l with
  | nil => rfl
  | cons t ts ih =>
      by_cases ht : t.Hash = h0
      · have hth : ¬ t.Hash = h := by omega
        rw [deleteTxMap, if_pos ht, lookupTx_cons, if_neg hth, ih]
      · rw [deleteTxMap, if_neg ht, lookupTx_cons, lookupTx_cons]
        by_cases hth : t.Hash = h
        · simp [hth]
        · simp [hth, ih]

theorem lookupTx_insertTxMap_self (l : List MemPoolTx) (tx : MemPoolTx) :
    lookupTx (insertTxMap l tx) tx.Hash = some tx := by
  simp [insertTxMap, lookupTx_cons]

theorem lookupTx_insertTxMap_ne (l : List MemPoolTx) (tx : MemPoolTx)
    {h : Nat} (hne : h ≠ tx.Hash) :
    lookupTx (insertTxMap l tx) h = lookupTx l h := by
  rw [insertTxMap, lookupTx_cons, if_neg (by omega)]
  exact lookupTx_deleteTxMap_ne l hne

/-! ## Per-sender counting -/

theorem countFromHash_nil (a h : Nat) : countFromHash [] a h = 0 := rfl

theorem countFromHash_cons (t : MemPoolTx) (l : List MemPoolTx) (a h : Nat) :
    countFromHash (t :: l) a h =
      countFromHash l a h +
        (if t.From = a ∧ t.Hash = h then 1 else 0) := by
  simp only [countFromHash, List.countP_cons]
  by_cases hf : t.From = a <;> by_cases hh : t.Hash = h <;>
    simp [hf, hh]

theorem countFromHash_le_countHash (l : List MemPoolTx) (a h : Nat) :
    countFromHash l a h ≤ countHash l h := by
  apply List.countP_mono_left
  intro t _ hp
  simp only [Bool.and_eq_true] at hp
  exact hp.2

theorem countFromHash_deleteTxMap_self (l : List MemPoolTx) (a h : Nat) :
    countFromHash (deleteTxMap l h) a h = 0 := by
  have := countFromHash_le_countHash (deleteTxMap l h) a h
  have h2 := countHash_deleteTxMap_self l h
  omega

theorem countFromHash_deleteTxMap_ne (l : List MemPoolTx) (a : Nat)
    {h h0 : Nat} (hne : h ≠ h0) :
    countFromHash (deleteTxMap l h0) a h = countFromHash l a h := by
  induction l with
  | nil => rfl
  | cons t ts ih =>
      by_cases ht : t.Hash = h0
      · have hta : ¬ (t.From = a ∧ t.Hash = h) := by
          rintro ⟨-, hh⟩; omega
        rw [deleteTxMap, if_pos ht, countFromHash_cons, if_neg hta, ih]
        omega
      · rw [deleteTxMap, if_neg ht, countFromHash_cons,
          countFromHash_cons, ih]

theorem countFromHash_of_unique {l : List MemPoolTx} {h : Nat}
    {t : MemPoolTx} (hu : countHash l h ≤ 1)
    (hl : lookupTx l h = some t) (a : Nat) :
    countFromHash l a h = if t.From = a then 1 else 0 := by
  induction l with
  | nil => simp [lookupTx_nil] at hl
  | cons y ys ih =>
      rw [lookupTx_cons] at hl
      rw [countHash_cons] at hu
      by_cases hy : y.Hash = h
      · rw [if_pos hy] at hl
        have hyt : y = t := by injection hl
        subst hyt
        have hz : countHash ys h = 0 := by
          rw [if_pos hy] at hu; omega
        have hfz : countFromHash ys a h = 0 := by
          have := countFromHash_le_countHash ys a h
          omega
        rw [countFromHash_cons, hfz]
        by_cases hf : y.From = a
        · simp [hf, hy]
        · simp [hf, hy]
      · rw [if_neg hy] at hl
        rw [if_neg hy] at hu
        have hya : ¬ (y.From = a ∧ y.Hash = h) := by
          rintro ⟨-, hh⟩; exact hy hh
        rw [countFromHash_cons, if_neg hya]
        simpa using ih (by omega) hl

/-! ## Sender-index map lemmas -/

theorem byFromD_setFromA_self (m : List (Nat × List MemPoolTx)) (a : Nat)
    (v : List MemPoolTx) : byFromD (setFromA m a v) a = v := by
  simp [byFromD, setFromA, lookupFromA, List.find?_cons]

theorem lookupFromA_removeFromA_ne (m : List (Nat × List MemPoolTx))
    {a a' : Nat} (hne : a' ≠ a) :
    lookupFromA (removeFromA m a) a' = lookupFromA m a' := by
  induction m with
  | nil => rfl
  | cons p ps ih =>
      by_cases hp : p.1 = a
      · have hpa : ¬ (p.1 == a') = true := by simp; omega
        rw [removeFromA, if_pos hp, ih]
        simp [lookupFromA, List.find?_cons, hpa]
      · rw [removeFromA, if_neg hp]
        simp only [lookupFromA, List.find?_cons]
        by_cases hpa : (p.1 == a') = true
        · simp [hpa]
        · simp only [hpa, Bool.false_eq_true, if_false]
          exact ih

theorem byFromD_setFromA_ne (m : List (Nat × List MemPoolTx))
    {a a' : Nat} (v : List MemPoolTx) (hne : a' ≠ a) :
    byFromD (setFromA m a v) a' = byFromD m a' := by
  have hpa : ¬ (a == a') = true := by simp; omega
  simp only [byFromD, setFromA, lookupFromA, List.find?_cons, hpa,
    Bool.false_eq_true, if_false]
  rw [show ((removeFromA m a).find? (fun p => p.1 == a')).map (·.2) =
      lookupFromA (removeFromA m a) a' from rfl,
    lookupFromA_removeFromA_ne m hne]
  rfl

/-! ## The single-writer invariant -/

theorem addTxInner_Transactions (s : PendingPool) (tx : MemPoolTx) :
    (addTxInner s tx).Transactions = insertTxMap s.Transactions tx := rfl

theorem addTxInner_Asc (s : PendingPool) (tx : MemPoolTx) :
    (addTxInner s tx).AscTxsByGasPrice =
      insertSorted ascLE tx s.AscTxsByGasPrice := rfl

theorem addTxInner_Desc (s : PendingPool) (tx : MemPoolTx) :
    (addTxInner s tx).DescTxsByGasPrice =
      insertSorted descLE tx s.DescTxsByGasPrice := rfl

theorem addTxInner_From (s : PendingPool) (tx : MemPoolTx) :
    (addTxInner s tx).TxsFromAddress =
      setFromA s.TxsFromAddress tx.From
        (insertSorted fromLE tx (byFromD s.TxsFromAddress tx.From)) := rfl

theorem addTxInner_Dropped (s : PendingPool) (tx : MemPoolTx) :
    (addTxInner s tx).DroppedTxs = s.DroppedTxs := rfl

theorem removeTxInner_Transactions (s : PendingPool) (tx : MemPoolTx) :
    (removeTxInner s tx).Transactions =
      deleteTxMap s.Transactions tx.Hash := rfl

theorem removeTxInner_Asc (s : PendingPool) (tx : MemPoolTx) :
    (removeTxInner s tx).AscTxsByGasPrice =
      removeFirstByHash s.AscTxsByGasPrice tx.Hash := rfl

theorem removeTxInner_Desc (s : PendingPool) (tx : MemPoolTx) :
    (removeTxInner s tx).DescTxsByGasPrice =
      removeFirstByHash s.DescTxsByGasPrice tx.Hash := rfl

theorem removeTxInner_From (s : PendingPool) (tx : MemPoolTx) :
    (removeTxInner s tx).TxsFromAddress =
      setFromA s.TxsFromAddress tx.From
        (removeFirstByHash (byFromD s.TxsFromAddress tx.From) tx.Hash) :=
  rfl

theorem removeTxInner_Dropped (s : PendingPool) (tx : MemPoolTx) :
    (removeTxInner s tx).DroppedTxs = s.DroppedTxs := rfl

theorem dropTx_parts (s : PendingPool) (tx : MemPoolTx) :
    dropTx s tx =
      { removeTxInner s tx with
        DroppedTxs := tx.Hash :: s.DroppedTxs } := rfl

theorem Inv_empty : Inv emptyPendingPool := by
  refine ⟨?_, ?_, ?_, ?_, ?_, ?_⟩ <;>
    simp [emptyPendingPool, countHash_nil, countFromHash_nil, byFromD,
      lookupFromA, lookupTx_nil]

theorem Inv_addTxInner {s : PendingPool} {tx : MemPoolTx} (hs : Inv s)
    (hfresh : countHash s.Transactions tx.Hash = 0)
    (hdrop : tx.Hash ∉ s.DroppedTxs) : Inv (addTxInner s tx) := by
  have hdel : deleteTxMap s.Transactions tx.Hash = s.Transactions :=
    deleteTxMap_eq_self_of_count_zero hfresh
  have hT : (addTxInner s tx).Transactions = tx :: s.Transactions := by
    rw [addTxInner_Transactions, insertTxMap, hdel]
  constructor
  · intro h
    rw [hT, countHash_cons]
    by_cases hh : tx.Hash = h
    · subst hh; simpa [hfresh] using hs.uniq tx.Hash
    · simpa [hh] using hs.uniq h
  · intro h
    rw [addTxInner_Asc, countHash_insertSorted, hT, countHash_cons,
      hs.ascCount]
  · intro h
    rw [addTxInner_Desc, countHash_insertSorted, hT, countHash_cons,
      hs.descCount]
  · intro a h
    rw [hT, countFromHash_cons, addTxInner_From]
    by_cases ha : a = tx.From
    · subst ha
      rw [byFromD_setFromA_self, countHash_insertSorted, hs.fromCount]
      by_cases hh : tx.Hash = h <;> simp [hh]
    · rw [byFromD_setFromA_ne _ _ ha, hs.fromCount]
      have hna : ¬ (tx.From = a ∧ tx.Hash = h) := by
        rintro ⟨hfa, -⟩; exact ha hfa.symm
      simp [hna]
  · intro t ht
    rw [addTxInner_Asc] at ht
    have ht' : t = tx ∨ t ∈ s.AscTxsByGasPrice := mem_insertSorted.mp ht
    rw [hT]
    rcases ht' with rfl | hmem
    · rw [lookupTx_cons, if_pos rfl]
    · have hne : t.Hash ≠ tx.Hash := by
        intro he
        have := countHash_pos_of_mem hmem he
        rw [hs.ascCount] at this
        omega
      rw [lookupTx_cons, if_neg (by omega)]
      exact hs.ascEntries t hmem
  · intro h hh
    rw [addTxInner_Dropped] at hh
    have hne : tx.Hash ≠ h := by
      intro he; exact hdrop (he ▸ hh)
    rw [hT, countHash_cons, if_neg hne]
    simpa using hs.droppedGone h hh

theorem Inv_removeTxInner {s : PendingPool} {txArg tx0 : MemPoolTx}
    (hs : Inv s)
    (hl : lookupTx s.Transactions txArg.Hash = some tx0)
    (hFrom : tx0.From = txArg.From) : Inv (removeTxInner s txArg) := by
  have hpos : 0 < countHash s.Transactions txArg.Hash :=
    lookupTx_isSome_iff.mp (by simp [hl])
  have hone : countHash s.Transactions txArg.Hash = 1 := by
    have := hs.uniq txArg.Hash; omega
  constructor
  · intro h
    rw [removeTxInner_Transactions]
    have h1 := countHash_deleteTxMap_le s.Transactions txArg.Hash h
    have h2 := hs.uniq h
    omega
  · intro h
    rw [removeTxInner_Asc, removeTxInner_Transactions]
    by_cases hh : h = txArg.Hash
    · subst hh
      rw [countHash_removeFirstByHash_self, hs.ascCount, hone,
        countHash_deleteTxMap_self]
    · rw [countHash_removeFirstByHash_ne _ hh, hs.ascCount,
        countHash_deleteTxMap_ne _ hh]
  · intro h
    rw [removeTxInner_Desc, removeTxInner_Transactions]
    by_cases hh : h = txArg.Hash
    · subst hh
      rw [countHash_removeFirstByHash_self, hs.descCount, hone,
        countHash_deleteTxMap_self]
    · rw [countHash_removeFirstByHash_ne _ hh, hs.descCount,
        countHash_deleteTxMap_ne _ hh]
  · intro a h
    rw [removeTxInner_From, removeTxInner_Transactions]
    by_cases ha : a = txArg.From
    · subst ha
      rw [byFromD_setFromA_self]
      by_cases hh : h = txArg.Hash
      · subst hh
        rw [countHash_removeFirstByHash_self, hs.fromCount,
          countFromHash_deleteTxMap_self,
          countFromHash_of_unique (hs.uniq _) hl, if_pos hFrom]
      · rw [countHash_removeFirstByHash_ne _ hh, hs.fromCount,
          countFromHash_deleteTxMap_ne _ _ hh]
    · rw [byFromD_setFromA_ne _ _ ha, hs.fromCount]
      by_cases hh : h = txArg.Hash
      · subst hh
        rw [countFromHash_deleteTxMap_self,
          countFromHash_of_unique (hs.uniq _) hl]
        rw [if_neg (by rw [hFrom]; omega)]
      · rw [countFromHash_deleteTxMap_ne _ _ hh]
  · intro t ht
    rw [removeTxInner_Asc] at ht
    rw [removeTxInner_Transactions]
    have hmem : t ∈ s.AscTxsByGasPrice := mem_of_mem_removeFirstByHash ht
    have hne : t.Hash ≠ txArg.Hash := by
      intro he
      have h1 : 0 < countHash
          (removeFirstByHash s.AscTxsByGasPrice txArg.Hash) txArg.Hash :=
        countHash_pos_of_mem ht he
      rw [countHash_removeFirstByHash_self, hs.ascCount, hone] at h1
      omega
    rw [lookupTx_deleteTxMap_ne _ hne]
    exact hs.ascEntries t hmem
  · intro h hh
    rw [removeTxInner_Dropped] at hh
    rw [removeTxInner_Transactions]
    by_cases he : h = txArg.Hash
    · subst he
      exact countHash_deleteTxMap_self _ _
    · rw [countHash_deleteTxMap_ne _ he]
      exact hs.droppedGone h hh

theorem Inv_dropTx {s : PendingPool} {victim : MemPoolTx} (hs : Inv s)
    (hv : victim ∈ s.AscTxsByGasPrice) : Inv (dropTx s victim) := by
  have hl : lookupTx s.Transactions victim.Hash = some victim :=
    hs.ascEntries victim hv
  have hs' : Inv (removeTxInner s victim) :=
    Inv_removeTxInner hs hl rfl
  constructor
  · exact hs'.uniq
  · exact hs'.ascCount
  · exact hs'.descCount
  · exact hs'.fromCount
  · exact hs'.ascEntries
  · intro h hh
    rcases List.mem_cons.mp hh with rfl | hmem
    · exact countHash_deleteTxMap_self _ _
    · exact hs'.droppedGone h hmem

theorem mem_of_head? {l : List MemPoolTx} {v : MemPoolTx}
    (h : l.head? = some v) : v ∈ l := by
  cases l with
  | nil => cases h
  | cons t ts =>
      simp only [List.head?] at h
      injection h with h
      exact h ▸ List.mem_cons_self _ _

theorem Inv_txAdder {capacity now : Nat} {s s' : PendingPool} {b : Bool}
    {ev : List PubEvent} {tx : MemPoolTx} (hs : Inv s)
    (hstep : txAdder capacity now s tx = some (s', b, ev)) : Inv s' := by
  unfold txAdder at hstep
  by_cases h1 : (lookupTx s.Transactions tx.Hash).isSome
  · rw [if_pos h1] at hstep
    simp only [Option.some.injEq, Prod.mk.injEq] at hstep
    obtain ⟨rfl, -, -⟩ := hstep
    exact hs
  · rw [if_neg h1] at hstep
    by_cases h2 : s.DroppedTxs.contains tx.Hash
    · rw [if_pos h2] at hstep
      simp only [Option.some.injEq, Prod.mk.injEq] at hstep
      obtain ⟨rfl, -, -⟩ := hstep
      exact hs
    · rw [if_neg h2] at hstep
      have hfresh : countHash s.Transactions tx.Hash = 0 :=
        lookupTx_eq_none_iff.mp (Option.not_isSome_iff_eq_none.mp h1)
      have hnd : tx.Hash ∉ s.DroppedTxs := by
        intro hmem
        exact h2 (List.elem_eq_true_of_mem hmem)
      by_cases h3 : s.AscTxsByGasPrice.length + 1 > capacity
      · rw [if_pos h3] at hstep
        cases hhead : s.AscTxsByGasPrice.head? with
        | none =>
            rw [hhead] at hstep
            cases hstep
        | some victim =>
            rw [hhead] at hstep
            simp only [Option.some.injEq, Prod.mk.injEq] at hstep
            obtain ⟨rfl, -, -⟩ := hstep
            have hv : victim ∈ s.AscTxsByGasPrice := mem_of_head? hhead
            have hs1 : Inv (dropTx s victim) := Inv_dropTx hs hv
            apply Inv_addTxInner hs1
            · show countHash
                (deleteTxMap s.Transactions victim.Hash) tx.Hash = 0
              have := countHash_deleteTxMap_le s.Transactions
                victim.Hash tx.Hash
              omega
            · show tx.Hash ∉ victim.Hash :: s.DroppedTxs
              have hvh : victim.Hash ≠ tx.Hash := by
                intro he
                have h5 : 0 < countHash s.AscTxsByGasPrice victim.Hash :=
                  countHash_pos_of_mem hv rfl
                rw [hs.ascCount, he, hfresh] at h5
                omega
              intro hmem
              rcases List.mem_cons.mp hmem with he | hmem'
              · exact hvh he.symm
              · exact hnd hmem'
      · rw [if_neg h3] at hstep
        simp only [Option.some.injEq, Prod.mk.injEq] at hstep
        obtain ⟨rfl, -, -⟩ := hstep
        exact Inv_addTxInner hs hfresh hnd

theorem Inv_txRemover {now : Nat} {s s' : PendingPool} {b : Bool}
    {ev : List PubEvent} {txStat : TxStatus} (hs : Inv s)
    (hstep : txRemover now s txStat = (s', b, ev)) : Inv s' := by
  unfold txRemover at hstep
  cases hL : lookupTx s.Transactions txStat.Hash with
  | none =>
      rw [hL] at hstep
      obtain ⟨rfl, -, -⟩ := Prod.mk.injEq .. ▸ hstep
      exact hs
  | some tx =>
      rw [hL] at hstep
      simp only [Prod.mk.injEq] at hstep
      obtain ⟨rfl, -, -⟩ := hstep
      have htx := lookupTx_some hL
      set tx' :=
        (if txStat.Status = TxStatusVal.DROPPED then
          { tx with Pool := "dropped", DroppedAt := now }
        else if txStat.Status = TxStatusVal.CONFIRMED then
          { tx with Pool := "confirmed", ConfirmedAt := now }
        else tx) with htx'
      have hhash : tx'.Hash = tx.Hash := by
        rw [htx']
        by_cases h1 : txStat.Status = TxStatusVal.DROPPED <;>
          by_cases h2 : txStat.Status = TxStatusVal.CONFIRMED <;>
            simp [h1, h2]
      have hfrom : tx'.From = tx.From := by
        rw [htx']
        by_cases h1 : txStat.Status = TxStatusVal.DROPPED <;>
          by_cases h2 : txStat.Status = TxStatusVal.CONFIRMED <;>
            simp [h1, h2]
      apply @Inv_removeTxInner s tx' tx hs
      · rw [hhash, htx.2]
        exact hL
      · exact hfrom.symm

theorem Inv_step {capacity : Nat} {s s' : PendingPool} {b : Bool}
    {ev : List PubEvent} {r : Request} (hs : Inv s)
    (hstep : step capacity s r = some (s', b, ev)) : Inv s' := by
  cases r with
  | addReq now tx => exact Inv_txAdder hs hstep
  | removeReq now txStat =>
      simp only [step, Option.some.injEq] at hstep
      exact Inv_txRemover hs hstep

theorem Inv_runPool {capacity : Nat} :
    ∀ (reqs : List Request) (s : PendingPool) (states : List PendingPool),
      Inv s → runPool capacity s reqs = some states →
        ∀ s' ∈ states, Inv s'
  | [], s, states, _, hrun, s', hmem => by
      simp only [runPool, Option.some.injEq] at hrun
      subst hrun
      cases hmem
  | r :: rs, s, states, hs, hrun, s', hmem => by
      rw [runPool] at hrun
      cases hstep : step capacity s r with
      | none => rw [hstep] at hrun; cases hrun
      | some out =>
          obtain ⟨s1, b, ev⟩ := out
          rw [hstep] at hrun
          dsimp only at hrun
          cases hrest : runPool capacity s1 rs with
          | none => rw [hrest] at hrun; cases hrun
          | some states' =>
              rw [hrest] at hrun
              simp only [Option.map_some', Option.some.injEq] at hrun
              subst hrun
              have hs1 : Inv s1 := Inv_step hs hstep
              rcases List.mem_cons.mp hmem with rfl | hmem'
              · exact hs1
              · exact Inv_runPool rs s1 states' hs1 hrest s' hmem'

theorem PoolInvariantsOk_of_Inv {s : PendingPool} (hs : Inv s) :
    PoolInvariantsOk s := by
  refine ⟨?_, ?_, ?_, ?_⟩
  · intro h
    constructor
    · intro hsome
      have h1 : 0 < countHash s.Transactions h :=
        lookupTx_isSome_iff.mp hsome
      have h2 := hs.uniq h
      constructor
      · rw [hs.ascCount]; omega
      · rw [hs.descCount]; omega
    · rintro ⟨h1, -⟩
      rw [hs.ascCount] at h1
      rw [lookupTx_isSome_iff]
      omega
  · intro tx htx
    have hl : lookupTx s.Transactions tx.Hash = some tx :=
      lookupTx_eq_some_of_unique (hs.uniq _) htx rfl
    rw [hs.fromCount, countFromHash_of_unique (hs.uniq _) hl, if_pos rfl]
  · intro h a hnone
    have h0 : countHash s.Transactions h = 0 :=
      lookupTx_eq_none_iff.mp hnone
    have h1 := countFromHash_le_countHash s.Transactions a h
    rw [hs.fromCount]
    omega
  · intro h hh
    rw [lookupTx_eq_none_iff]
    exact hs.droppedGone h hh

/-! ## Lemmas about ordered insertion at the extremes, for the eviction
analysis -/

theorem insertSorted_eq_append {r : MemPoolTx → MemPoolTx → Prop}
    [DecidableRel r] {tx : MemPoolTx} {l : List MemPoolTx}
    (hall : ∀ y ∈ l, ¬ r tx y) : insertSorted r tx l = l ++ [tx] := by
  induction l with
  | nil => rfl
  | cons y ys ih =>
      rw [insertSorted, if_neg (hall y (List.mem_cons_self _ _))]
      rw [ih (fun z hz => hall z (List.mem_cons_of_mem _ hz))]
      rfl

theorem insertSorted_eq_cons {r : MemPoolTx → MemPoolTx → Prop}
    [DecidableRel r] {tx : MemPoolTx} {l : List MemPoolTx}
    (hall : ∀ y ∈ l, r tx y) : insertSorted r tx l = tx :: l := by
  cases l with
  | nil => rfl
  | cons y ys =>
      rw [insertSorted, if_pos (hall y (List.mem_cons_self _ _))]

theorem removeFirstByHash_append_left {l₁ l₂ : List MemPoolTx} {h : Nat}
    (h0 : countHash l₁ h = 0) :
    removeFirstByHash (l₁ ++ l₂) h = l₁ ++ removeFirstByHash l₂ h := by
  rw [countHash_eq_zero] at h0
  induction l₁ with
  | nil => rfl
  | cons t ts ih =>
      have ht : ¬ t.Hash = h := h0 t (List.mem_cons_self _ _)
      rw [List.cons_append, removeFirstByHash, if_neg ht,
        ih (fun u hu => h0 u (List.mem_cons_of_mem _ hu))]
      rfl

theorem countHash_eq_zero_of_not_mem_map {l : List MemPoolTx} {h : Nat}
    (hnm : h ∉ l.map MemPoolTx.Hash) : countHash l h = 0 := by
  rw [countHash_eq_zero]
  intro t ht he
  exact hnm (he ▸ List.mem_map_of_mem MemPoolTx.Hash ht)

theorem count_map_hash (l : List MemPoolTx) (h : Nat) :
    (l.map MemPoolTx.Hash).count h = countHash l h := by
  induction l with
  | nil => rfl
  | cons t ts ih =>
      rw [List.map_cons, List.count_cons, countHash_cons, ih]
      by_cases ht : t.Hash = h
      · simp [ht]
      · simp [ht]

theorem transactions_hashes_perm_asc {s : PendingPool} (hs : Inv s) :
    (s.Transactions.map MemPoolTx.Hash).Perm
      (s.AscTxsByGasPrice.map MemPoolTx.Hash) := by
  rw [List.perm_iff_count]
  intro h
  rw [count_map_hash, count_map_hash, hs.ascCount]

theorem stampTx_Hash (now : Nat) (tx : MemPoolTx) :
    (stampTx now tx).Hash = tx.Hash := rfl

theorem stampTx_GasPrice (now : Nat) (tx : MemPoolTx) :
    (stampTx now tx).GasPrice = tx.GasPrice := rfl

theorem addReqs_cons (p : Nat × MemPoolTx) (l : List (Nat × MemPoolTx)) :
    addReqs (p :: l) = .addReq p.1 p.2 :: addReqs l := rfl

theorem stampList_cons (p : Nat × MemPoolTx) (l : List (Nat × MemPoolTx)) :
    stampList (p :: l) = stampTx p.1 p.2 :: stampList l := rfl

/-- The eviction window: running a batch of fresh `Add`s whose gas
prices strictly dominate the pool's current content keeps, of the
concatenated arrival order, exactly the last `capacity` records in the
ascending index, and tombstones the hashes of everything before them. -/
theorem runAdds_window (capacity : Nat) (hC : 1 ≤ capacity) :
    ∀ (adds : List (Nat × MemPoolTx)) (s : PendingPool),
      Inv s →
      s.AscTxsByGasPrice.length ≤ capacity →
      (s.AscTxsByGasPrice.map MemPoolTx.Hash ++
        adds.map (fun p => p.2.Hash)).Nodup →
      (∀ p ∈ adds, p.2.Hash ∉ s.DroppedTxs) →
      adds.Pairwise (fun p q => p.2.GasPrice < q.2.GasPrice) →
      (∀ t ∈ s.AscTxsByGasPrice, ∀ p ∈ adds,
        t.GasPrice < p.2.GasPrice) →
      ∃ sFin, runFinal capacity s (addReqs adds) = some sFin ∧
        sFin.AscTxsByGasPrice =
          (s.AscTxsByGasPrice ++ stampList adds).drop
            (s.AscTxsByGasPrice.length + adds.length - capacity) ∧
        sFin.DroppedTxs =
          (((s.AscTxsByGasPrice ++ stampList adds).take
            (s.AscTxsByGasPrice.length + adds.length - capacity)).map
              MemPoolTx.Hash).reverse ++ s.DroppedTxs ∧
        Inv sFin
  | [], s, hs, hlen, hnodup, hdropped, hsorted, hpoint => by
      refine ⟨s, rfl, ?_, ?_, hs⟩
      · have hz : s.AscTxsByGasPrice.length - capacity = 0 := by
          omega
        simp [stampList, hz]
      · have hz : s.AscTxsByGasPrice.length - capacity = 0 := by
          omega
        simp [stampList, hz]
  | (now, tx) :: rest, s, hs, hlen, hnodup, hdropped, hsorted, hpoint => by
      have hmaps : ((now, tx) :: rest).map (fun p => p.2.Hash) =
          tx.Hash :: rest.map (fun p => p.2.Hash) := rfl
      rw [hmaps] at hnodup
      obtain ⟨hascN, hrhsN, hdisj⟩ := List.nodup_append.mp hnodup
      have htxa : tx.Hash ∉ s.AscTxsByGasPrice.map MemPoolTx.Hash :=
        fun hmem => hdisj hmem (List.mem_cons_self _ _)
      have hc0 : countHash s.Transactions tx.Hash = 0 := by
        rw [← hs.ascCount]
        exact countHash_eq_zero_of_not_mem_map htxa
      have hlook : lookupTx s.Transactions tx.Hash = none :=
        lookupTx_eq_none_iff.mpr hc0
      have h1 : ¬ ((lookupTx s.Transactions tx.Hash).isSome = true) := by
        rw [hlook]; simp
      have hndrop : tx.Hash ∉ s.DroppedTxs :=
        hdropped (now, tx) (List.mem_cons_self _ _)
      have h2 : ¬ (s.DroppedTxs.contains tx.Hash = true) :=
        fun hc => hndrop (List.mem_of_elem_eq_true hc)
      have hpair := List.pairwise_cons.mp hsorted
      have hfreshStamp :
          countHash s.Transactions (stampTx now tx).Hash = 0 := by
        rw [stampTx_Hash]; exact hc0
      by_cases hfull : s.AscTxsByGasPrice.length + 1 > capacity
      -- the pool is full: the lowest-priced tx is evicted first
      · have hlenC : s.AscTxsByGasPrice.length = capacity := by omega
        cases hascE : s.AscTxsByGasPrice with
        | nil => rw [hascE] at hlenC; simp at hlenC; omega
        | cons v ascTail =>
            have hhead : s.AscTxsByGasPrice.head? = some v := by
              rw [hascE]; rfl
            have hstep : step capacity s (.addReq now tx) =
                some (addTxInner (dropTx s v) (stampTx now tx), true,
                  [.added (stampTx now tx)]) := by
              show txAdder capacity now s tx = _
              unfold txAdder
              rw [if_neg h1, if_neg h2, if_pos hfull, hhead]
            have hvmem : v ∈ s.AscTxsByGasPrice := by
              rw [hascE]; exact List.mem_cons_self _ _
            have hvh : v.Hash ∈ s.AscTxsByGasPrice.map MemPoolTx.Hash :=
              List.mem_map_of_mem _ hvmem
            have hs1 : Inv (dropTx s v) := Inv_dropTx hs hvmem
            have htxv : tx.Hash ≠ v.Hash := fun he => htxa (he ▸ hvh)
            have hs2 : Inv (addTxInner (dropTx s v) (stampTx now tx)) := by
              apply Inv_addTxInner hs1
              · rw [stampTx_Hash]
                show countHash (deleteTxMap s.Transactions v.Hash)
                  tx.Hash = 0
                have := countHash_deleteTxMap_le s.Transactions
                  v.Hash tx.Hash
                omega
              · rw [stampTx_Hash]
                intro hmem
                rcases List.mem_cons.mp hmem with he | hmem'
                · exact htxv he
                · exact hndrop hmem'
            have hs2Asc : (addTxInner (dropTx s v)
                (stampTx now tx)).AscTxsByGasPrice =
                  ascTail ++ [stampTx now tx] := by
              rw [addTxInner_Asc]
              show insertSorted ascLE (stampTx now tx)
                (removeFirstByHash s.AscTxsByGasPrice v.Hash) = _
              rw [hascE, removeFirstByHash, if_pos rfl]
              apply insertSorted_eq_append
              intro y hy hle
              have hyA : y ∈ s.AscTxsByGasPrice := by
                rw [hascE]; exact List.mem_cons_of_mem _ hy
              have hgp : y.GasPrice < tx.GasPrice :=
                hpoint y hyA (now, tx) (List.mem_cons_self _ _)
              rcases hle with hlt | ⟨heq, -⟩
              · rw [stampTx_GasPrice] at hlt; omega
              · rw [stampTx_GasPrice] at heq; omega
            have hs2Drop : (addTxInner (dropTx s v)
                (stampTx now tx)).DroppedTxs = v.Hash :: s.DroppedTxs :=
              rfl
            have hascMap : s.AscTxsByGasPrice.map MemPoolTx.Hash =
                v.Hash :: ascTail.map MemPoolTx.Hash := by
              rw [hascE]; rfl
            have hnodupC : (v.Hash :: (ascTail.map MemPoolTx.Hash ++
                (tx.Hash :: rest.map (fun p => p.2.Hash)))).Nodup := by
              have h := hnodup
              rw [hascMap] at h
              exact h
            have hvn : v.Hash ∉ ascTail.map MemPoolTx.Hash ++
                tx.Hash :: rest.map (fun p => p.2.Hash) :=
              (List.nodup_cons.mp hnodupC).1
            have htailN : (ascTail.map MemPoolTx.Hash ++
                tx.Hash :: rest.map (fun p => p.2.Hash)).Nodup :=
              (List.nodup_cons.mp hnodupC).2
            have hvNotRest : v.Hash ∉ rest.map (fun p => p.2.Hash) :=
              fun hmem => hvn (List.mem_append_right _
                (List.mem_cons_of_mem _ hmem))
            obtain ⟨sFin, hrunRest, hAsc, hDrop, hInv⟩ :=
              runAdds_window capacity hC rest
                (addTxInner (dropTx s v) (stampTx now tx))
                hs2
                (by
                  rw [hs2Asc]
                  have hlt : ascTail.length + 1 = capacity := by
                    rw [hascE] at hlenC
                    simpa using hlenC
                  simp only [List.length_append, List.length_cons,
                    List.length_nil]
                  omega)
                (by
                  rw [hs2Asc]
                  have hms : (ascTail ++ [stampTx now tx]).map
                      MemPoolTx.Hash =
                        ascTail.map MemPoolTx.Hash ++ [tx.Hash] := by
                    rw [List.map_append]; rfl
                  rw [hms, List.append_assoc, List.singleton_append]
                  exact htailN)
                (by
                  intro p hp
                  rw [hs2Drop]
                  intro hmem
                  rcases List.mem_cons.mp hmem with he | hmem'
                  · exact hvNotRest (he ▸ List.mem_map_of_mem _ hp)
                  · exact hdropped p (List.mem_cons_of_mem _ hp) hmem')
                hpair.2
                (by
                  intro t ht p hp
                  rw [hs2Asc] at ht
                  rcases List.mem_append.mp ht with htl | hts
                  · have htA : t ∈ s.AscTxsByGasPrice := by
                      rw [hascE]; exact List.mem_cons_of_mem _ htl
                    exact hpoint t htA p (List.mem_cons_of_mem _ hp)
                  · have : t = stampTx now tx := by simpa using hts
                    rw [this, stampTx_GasPrice]
                    exact hpair.1 p hp)
            refine ⟨sFin, ?_, ?_, ?_, hInv⟩
            · rw [addReqs_cons, runFinal, hstep]
              exact hrunRest
            · rw [hAsc, hs2Asc, stampList_cons]
              have hlt : ascTail.length + 1 = capacity := by
                rw [hascE] at hlenC
                simpa using hlenC
              have hidx1 : (ascTail ++ [stampTx now tx]).length +
                  rest.length - capacity = rest.length := by
                simp only [List.length_append, List.length_cons,
                  List.length_nil]
                omega
              have hidx2 : (v :: ascTail).length +
                  (rest.length + 1) - capacity = rest.length + 1 := by
                simp only [List.length_cons]
                omega
              rw [hidx1, show ((now, tx) :: rest).length =
                rest.length + 1 from rfl, hidx2]
              rw [List.append_assoc, List.singleton_append,
                List.cons_append, List.drop_succ_cons]
            · rw [hDrop, hs2Asc, hs2Drop, stampList_cons]
              have hlt : ascTail.length + 1 = capacity := by
                rw [hascE] at hlenC
                simpa using hlenC
              have hidx1 : (ascTail ++ [stampTx now tx]).length +
                  rest.length - capacity = rest.length := by
                simp only [List.length_append, List.length_cons,
                  List.length_nil]
                omega
              have hidx2 : (v :: ascTail).length +
                  (rest.length + 1) - capacity = rest.length + 1 := by
                simp only [List.length_cons]
                omega
              rw [hidx1, show ((now, tx) :: rest).length =
                rest.length + 1 from rfl, hidx2]
              rw [List.append_assoc, List.singleton_append,
                List.cons_append, List.take_succ_cons, List.map_cons,
                List.reverse_cons, List.append_assoc,
                List.singleton_append]
      -- the pool still has room: no eviction
      · have hstep : step capacity s (.addReq now tx) =
            some (addTxInner s (stampTx now tx), true,
              [.added (stampTx now tx)]) := by
          show txAdder capacity now s tx = _
          unfold txAdder
          rw [if_neg h1, if_neg h2, if_neg hfull]
        have hsAsc : (addTxInner s (stampTx now tx)).AscTxsByGasPrice =
            s.AscTxsByGasPrice ++ [stampTx now tx] := by
          rw [addTxInner_Asc]
          apply insertSorted_eq_append
          intro y hy hle
          have hgp : y.GasPrice < tx.GasPrice :=
            hpoint y hy (now, tx) (List.mem_cons_self _ _)
          rcases hle with hlt | ⟨heq, -⟩
          · rw [stampTx_GasPrice] at hlt; omega
          · rw [stampTx_GasPrice] at heq; omega
        have hsInv : Inv (addTxInner s (stampTx now tx)) := by
          apply Inv_addTxInner hs hfreshStamp
          rw [stampTx_Hash]
          exact hndrop
        obtain ⟨sFin, hrunRest, hAsc, hDrop, hInv⟩ :=
          runAdds_window capacity hC rest
            (addTxInner s (stampTx now tx))
            hsInv
            (by
              rw [hsAsc]
              simp only [List.length_append, List.length_cons,
                List.length_nil]
              omega)
            (by
              rw [hsAsc, List.map_append]
              have hms : [stampTx now tx].map MemPoolTx.Hash =
                  [tx.Hash] := rfl
              rw [hms, List.append_assoc, List.singleton_append]
              exact hnodup)
            (by
              intro p hp
              rw [addTxInner_Dropped]
              exact hdropped p (List.mem_cons_of_mem _ hp))
            hpair.2
            (by
              intro t ht p hp
              rw [hsAsc] at ht
              rcases List.mem_append.mp ht with htl | hts
              · exact hpoint t htl p (List.mem_cons_of_mem _ hp)
              · have : t = stampTx now tx := by simpa using hts
                rw [this, stampTx_GasPrice]
                exact hpair.1 p hp)
        refine ⟨sFin, ?_, ?_, ?_, hInv⟩
        · rw [addReqs_cons, runFinal, hstep]
          exact hrunRest
        · rw [hAsc, hsAsc, stampList_cons]
          have hidx : (s.AscTxsByGasPrice ++ [stampTx now tx]).length +
              rest.length - capacity =
                s.AscTxsByGasPrice.length +
                  ((now, tx) :: rest).length - capacity := by
            simp only [List.length_append, List.length_cons,
              List.length_nil]
            omega
          rw [hidx, List.append_assoc, List.singleton_append]
        · rw [hDrop, hsAsc, addTxInner_Dropped, stampList_cons]
          have hidx : (s.AscTxsByGasPrice ++ [stampTx now tx]).length +
              rest.length - capacity =
                s.AscTxsByGasPrice.length +
                  ((now, tx) :: rest).length - capacity := by
            simp only [List.length_append, List.length_cons,
              List.length_nil]
            omega
          rw [hidx, List.append_assoc, List.singleton_append]

theorem stampList_map_hash (l : List (Nat × MemPoolTx)) :
    (stampList l).map MemPoolTx.Hash = l.map (fun p => p.2.Hash) := by
  induction l with
  | nil => rfl
  | cons p ps ih =>
      rw [stampList_cons, List.map_cons, List.map_cons, ih, stampTx_Hash]

theorem stampList_length (l : List (Nat × MemPoolTx)) :
    (stampList l).length = l.length := List.length_map _ _

theorem runFinal_zero_capacity_add (a : Nat × MemPoolTx)
    (rest : List (Nat × MemPoolTx)) :
    runFinal 0 emptyPendingPool (addReqs (a :: rest)) = none := by
  rw [addReqs_cons, runFinal]
  have hst : step 0 emptyPendingPool (.addReq a.1 a.2) = none := by
    show txAdder 0 a.1 emptyPendingPool a.2 = none
    unfold txAdder
    rw [if_neg (by simp [emptyPendingPool, lookupTx_nil]),
      if_neg (by simp [emptyPendingPool, List.contains]),
      if_pos (by simp [emptyPendingPool])]
    rfl
  rw [hst]

/-! ## Codec round-trip lemmas -/

theorem decodeString_encodeString (s : String) (t : List Nat) :
    decodeString (encodeString s ++ t) = some (s, t) := by
  show decodeString (s.data.length :: (s.data.map Char.toNat ++ t)) = _
  rw [decodeString]
  have hlen : s.data.length ≤ (s.data.map Char.toNat ++ t).length := by
    simp
  rw [if_pos hlen]
  have htake : (s.data.map Char.toNat ++ t).take s.data.length =
      s.data.map Char.toNat :=
    List.take_left' (List.length_map _ _)
  have hdrop : (s.data.map Char.toNat ++ t).drop s.data.length = t :=
    List.drop_left' (List.length_map _ _)
  rw [htake, hdrop, List.map_map]
  have hid : ∀ l : List Char, l.map (Char.ofNat ∘ Char.toNat) = l := by
    intro l
    induction l with
    | nil => rfl
    | cons c cs ih => simp [ih, Char.ofNat_toNat]
  rw [hid]

theorem decodeMemPoolTx_encode (m : MemPoolTx) :
    decodeMemPoolTx (encodeMemPoolTx m) = some m := by
  show decodeMemPoolTx (m.Hash :: m.From :: m.Nonce :: m.GasPrice ::
    m.PendingFrom :: m.QueuedAt :: m.DroppedAt :: m.ConfirmedAt ::
      (encodeString m.Pool ++ encodeString m.ReceivedFrom)) = some m
  rw [decodeMemPoolTx, decodeString_encodeString]
  dsimp only
  rw [← List.append_nil (encodeString m.ReceivedFrom),
    decodeString_encodeString]
  rfl

/-! ## The claims -/

/-- C1: for every sequence of Add and Remove requests accepted by the
pool actor starting from the empty pool, the pool invariants hold after
every request: a hash is a key of the `Transactions` map iff it appears
exactly once in `AscTxsByGasPrice`, exactly once in
`DescTxsByGasPrice`, and exactly once in `TxsFromAddress[tx.From]`; and
every hash in the `DroppedTxs` tombstone set is absent from the
`Transactions` map. -/
theorem pendingPool_invariants_after_accepted_requests
    (capacity : Nat) (reqs : List Request) (states : List PendingPool)
    (s' : PendingPool)
    (hrun : runPool capacity emptyPendingPool reqs = some states)
    (hmem : s' ∈ states) : PoolInvariantsOk s' :=
  PoolInvariantsOk_of_Inv
    (Inv_runPool reqs emptyPendingPool states Inv_empty hrun s' hmem)

/-- C2: for every capacity `C` and every sequence of `N > C` Adds of
distinct transactions presented in (ascending) gas-price order,
accepted from the empty pool, exactly `C` transactions remain, they are
the `C` with the highest gas price (the last `C` of the ascending
presentation), and the hashes of the other `N - C` transactions are all
in the `DroppedTxs` tombstone set. -/
theorem capacity_eviction_keeps_highest_gas_price (capacity : Nat)
    (adds : List (Nat × MemPoolTx)) (sFin : PendingPool)
    (hN : capacity < adds.length)
    (hnodup : (adds.map (fun p => p.2.Hash)).Nodup)
    (hsorted : adds.Pairwise (fun p q => p.2.GasPrice < q.2.GasPrice))
    (hrun : runFinal capacity emptyPendingPool (addReqs adds) =
      some sFin) :
    sFin.Transactions.length = capacity ∧
    (sFin.Transactions.map MemPoolTx.Hash).Perm
      ((adds.drop (adds.length - capacity)).map (fun p => p.2.Hash)) ∧
    (∀ p ∈ adds.take (adds.length - capacity),
      p.2.Hash ∈ sFin.DroppedTxs) := by
  rcases Nat.eq_zero_or_pos capacity with hc0 | hcpos
  · subst hc0
    cases adds with
    | nil => simp at hN
    | cons a rest =>
        rw [runFinal_zero_capacity_add a rest] at hrun
        cases hrun
  · obtain ⟨sF, hrun', hAsc, hDrop, hInv⟩ :=
      runAdds_window capacity hcpos adds emptyPendingPool Inv_empty
        (by simp [emptyPendingPool])
        (by simpa [emptyPendingPool] using hnodup)
        (by simp [emptyPendingPool])
        hsorted
        (by simp [emptyPendingPool])
    rw [hrun'] at hrun
    injection hrun with hrun
    rw [← hrun]
    simp only [emptyPendingPool, List.nil_append, List.length_nil,
      Nat.zero_add, List.append_nil] at hAsc hDrop
    have hperm := transactions_hashes_perm_asc hInv
    have hmapAsc : sF.AscTxsByGasPrice.map MemPoolTx.Hash =
        ((adds.drop (adds.length - capacity)).map
          (fun p => p.2.Hash)) := by
      rw [hAsc, List.map_drop, stampList_map_hash, ← List.map_drop]
    constructor
    · have hlen := hperm.length_eq
      rw [List.length_map, List.length_map, hAsc] at hlen
      rw [hlen, List.length_drop, stampList_length]
      omega
    constructor
    · rw [hmapAsc] at hperm
      exact hperm
    · intro p hp
      rw [hDrop, List.mem_reverse]
      have hin : p.2.Hash ∈
          ((stampList adds).take (adds.length - capacity)).map
            MemPoolTx.Hash := by
        rw [List.map_take, stampList_map_hash, ← List.map_take]
        exact List.mem_map_of_mem _ hp
      exact hin

/-- C3 (code bug): `FromMessagePack` hands a nil destination pointer to
`msgpack.Unmarshal`, so decoding fails on every input — in particular on
the output of `ToMessagePack` — and the mandated round-trip
`encode(decode(encode(t))) == encode(t)` never gets past `decode`.  The
spec-mandated fresh-record decode does round-trip at the same input. -/
theorem fromMessagePack_nil_decode_always_fails :
    FromMessagePack (ToMessagePack
      { Hash := 170, From := 1, Nonce := 5, GasPrice := 100
        PendingFrom := 7, QueuedAt := 0, DroppedAt := 0
        ConfirmedAt := 0, Pool := "pending", ReceivedFrom := "" }) =
      .error "msgpack: Decode(nil *MemPoolTx)" ∧
    FromMessagePackFresh (ToMessagePack
      { Hash := 170, From := 1, Nonce := 5, GasPrice := 100
        PendingFrom := 7, QueuedAt := 0, DroppedAt := 0
        ConfirmedAt := 0, Pool := "pending", ReceivedFrom := "" }) =
      .ok { Hash := 170, From := 1, Nonce := 5, GasPrice := 100
            PendingFrom := 7, QueuedAt := 0, DroppedAt := 0
            ConfirmedAt := 0, Pool := "pending", ReceivedFrom := "" } :=
  ⟨rfl, rfl⟩

/-- C4: an `Add` for a tx whose hash is already a key of the
`Transactions` map or already tombstoned in `DroppedTxs` replies
`false` and leaves the whole pool state unchanged, publishing
nothing. -/
theorem duplicate_or_tombstoned_add_rejected (capacity now : Nat)
    (s : PendingPool) (tx : MemPoolTx)
    (hdup : (lookupTx s.Transactions tx.Hash).isSome ∨
      tx.Hash ∈ s.DroppedTxs) :
    step capacity s (.addReq now tx) = some (s, false, []) := by
  show txAdder capacity now s tx = _
  unfold txAdder
  rcases hdup with h | h
  · rw [if_pos h]
  · by_cases h1 : (lookupTx s.Transactions tx.Hash).isSome = true
    · rw [if_pos h1]
    · rw [if_neg h1, if_pos (List.elem_eq_true_of_mem h)]

/-- C5: the gossip writer's `process` closure for peer `P` never frames
a tx whose `ReceivedFrom` is `P` (origin suppression), while the writer
of any other peer `Q` frames and emits the same payload. -/
theorem gossip_writer_origin_suppression (tx : MemPoolTx) (P Q : String)
    (hP : tx.ReceivedFrom = P) (hQ : Q ≠ P) :
    processMsg P (ToMessagePack tx) = none ∧
    processMsg Q (ToMessagePack tx) =
      some (mkChunk (ToMessagePack tx)) := by
  have hdec : UnmarshalPubSubMessage (ToMessagePack tx) = some tx :=
    decodeMemPoolTx_encode tx
  constructor
  · rw [processMsg, hdec]
    dsimp only
    rw [if_pos hP]
  · rw [processMsg, hdec]
    dsimp only
    rw [if_neg (by rw [hP]; exact fun he => hQ he.symm)]

/-- C6 counterexample: a prune job whose RPC probe fails with a
transient error discards the error, classifies the tx as `CONFIRMED`,
and the `internalChan` consumer emits a `Remove` for it — the claim
says no `Remove` is emitted. -/
theorem prune_transient_rpc_error_cex :
    pruneJobStatus 7 (.error "connection timed out") =
      ⟨7, .CONFIRMED⟩ ∧
    pruneEmitsRemove
      (pruneJobStatus 7 (.error "connection timed out")) = true :=
  ⟨rfl, rfl⟩

/-- C6 amended: on a transient RPC error the prune job ignores the
error, classifies the transaction as `CONFIRMED`, and a `Remove`
request is emitted for it (it is not left in the pool). -/
theorem prune_transient_rpc_error_emits_confirmed_remove
    (h : Nat) (e : String) :
    pruneJobStatus h (.error e) = ⟨h, .CONFIRMED⟩ ∧
    pruneEmitsRemove (pruneJobStatus h (.error e)) = true :=
  ⟨rfl, rfl⟩

/-- C7 counterexample: with capacity 1, four Adds of ascending gas
price leave three hashes in `DroppedTxs` — more than 2 × capacity = 2,
so the tombstone set is not bounded by 2 × capacity. -/
theorem droppedTxs_exceeds_twice_capacity_cex :
    ((runFinal 1 emptyPendingPool (addReqs
      [(1, { Hash := 10, From := 1, Nonce := 0, GasPrice := 10
             PendingFrom := 0, QueuedAt := 0, DroppedAt := 0
             ConfirmedAt := 0, Pool := "", ReceivedFrom := "" }),
       (2, { Hash := 20, From := 1, Nonce := 1, GasPrice := 20
             PendingFrom := 0, QueuedAt := 0, DroppedAt := 0
             ConfirmedAt := 0, Pool := "", ReceivedFrom := "" }),
       (3, { Hash := 30, From := 2, Nonce := 0, GasPrice := 30
             PendingFrom := 0, QueuedAt := 0, DroppedAt := 0
             ConfirmedAt := 0, Pool := "", ReceivedFrom := "" }),
       (4, { Hash := 40, From := 2, Nonce := 1, GasPrice := 40
             PendingFrom := 0, QueuedAt := 0, DroppedAt := 0
             ConfirmedAt := 0, Pool := "", ReceivedFrom := "" })])).map
        (fun s => s.DroppedTxs.length)) = some 3 ∧ 2 * 1 < 3 :=
  ⟨rfl, by norm_num⟩

/-- C7 amended: the `DroppedTxs` tombstone set is unbounded — no
request ever removes a hash from it (every accepted request only
preserves or extends it), so its size equals the total number of
evictions and can exceed 2 × capacity. -/
theorem droppedTxs_tombstones_never_removed {capacity : Nat}
    {s s' : PendingPool} {b : Bool} {ev : List PubEvent} {r : Request}
    (hstep : step capacity s r = some (s', b, ev)) :
    ∀ h ∈ s.DroppedTxs, h ∈ s'.DroppedTxs := by
  intro h hmem
  cases r with
  | addReq now tx =>
      simp only [step] at hstep
      unfold txAdder at hstep
      by_cases h1 : (lookupTx s.Transactions tx.Hash).isSome
      · rw [if_pos h1] at hstep
        simp only [Option.some.injEq, Prod.mk.injEq] at hstep
        obtain ⟨rfl, -, -⟩ := hstep
        exact hmem
      · rw [if_neg h1] at hstep
        by_cases h2 : s.DroppedTxs.contains tx.Hash
        · rw [if_pos h2] at hstep
          simp only [Option.some.injEq, Prod.mk.injEq] at hstep
          obtain ⟨rfl, -, -⟩ := hstep
          exact hmem
        · rw [if_neg h2] at hstep
          by_cases h3 : s.AscTxsByGasPrice.length + 1 > capacity
          · rw [if_pos h3] at hstep
            cases hhead : s.AscTxsByGasPrice.head? with
            | none => rw [hhead] at hstep; cases hstep
            | some victim =>
                rw [hhead] at hstep
                simp only [Option.some.injEq, Prod.mk.injEq] at hstep
                obtain ⟨rfl, -, -⟩ := hstep
                exact List.mem_cons_of_mem _ hmem
          · rw [if_neg h3] at hstep
            simp only [Option.some.injEq, Prod.mk.injEq] at hstep
            obtain ⟨rfl, -, -⟩ := hstep
            exact hmem
  | removeReq now txStat =>
      simp only [step, Option.some.injEq] at hstep
      unfold txRemover at hstep
      cases hL : lookupTx s.Transactions txStat.Hash with
      | none =>
          rw [hL] at hstep
          obtain ⟨rfl, -, -⟩ := Prod.mk.injEq .. ▸ hstep
          exact hmem
      | some tx =>
          rw [hL] at hstep
          simp only [Prod.mk.injEq] at hstep
          obtain ⟨rfl, -, -⟩ := hstep
          exact hmem

/-- C8 (code bug): `TopXWithHighGasPrice` (and `TopXWithLowGasPrice`)
slice the reply without clamping `x`: on the empty pool with `x = 1`
the slice bound exceeds the reply's capacity and the call panics
(modelled as `none`) instead of returning at most `min(x, size)`
transactions. -/
theorem topX_slice_out_of_range_on_empty_pool :
    TopXWithHighGasPrice emptyPendingPool 1 = none ∧
    TopXWithLowGasPrice emptyPendingPool 1 = none :=
  ⟨rfl, rfl⟩

/-- C9: one poller iteration forwards a successful `txpool_content`
result and sleeps for the configured period — 1000 ms when the period
is unset or unparsable — exits silently when the error mentions context
cancellation, and signals the supervisor (closing the sentinel channel)
and exits on any other error. -/
theorem poller_step_behavior (cfg cfg2 : List (String × String))
    (snap : TxPoolContent) (e1 e2 : String) (n : Nat)
    (h1 : errIsContextCanceled e1 = true)
    (h2 : errIsContextCanceled e2 = false)
    (h3 : parseUint (configGet cfg "MemPoolPollingPeriod") = none)
    (h4 : parseUint (configGet cfg2 "MemPoolPollingPeriod") = some n) :
    pollTxPoolContentStep cfg (.ok snap) = .processAndSleep snap 1000 ∧
    pollTxPoolContentStep cfg2 (.ok snap) = .processAndSleep snap n ∧
    pollTxPoolContentStep cfg (.error e1) = .exitSilently ∧
    pollTxPoolContentStep cfg (.error e2) = .signalSupervisorAndExit := by
  refine ⟨?_, ?_, ?_, ?_⟩
  · rw [pollTxPoolContentStep, GetMemPoolPollingPeriod, h3]
  · rw [pollTxPoolContentStep, GetMemPoolPollingPeriod, h4]
  · rw [pollTxPoolContentStep, if_pos h1]
  · rw [pollTxPoolContentStep, if_neg (by rw [h2]; simp)]

/-- C10: `List(ASC)` and `List(DESC)` reply `nil` on an empty index and
otherwise a copy of the index's contents; `TxsFrom(addr)` replies `nil`
both when the address has no entry and when its entry is empty, and
otherwise a copy of the entry. -/
theorem list_and_txsFrom_reply_semantics (s : PendingPool) (a : Nat) :
    (s.AscTxsByGasPrice = [] → listTxsHandler s .ASC = none) ∧
    (s.DescTxsByGasPrice = [] → listTxsHandler s .DESC = none) ∧
    (s.AscTxsByGasPrice ≠ [] →
      listTxsHandler s .ASC = some s.AscTxsByGasPrice) ∧
    (s.DescTxsByGasPrice ≠ [] →
      listTxsHandler s .DESC = some s.DescTxsByGasPrice) ∧
    (lookupFromA s.TxsFromAddress a = none →
      txsFromAHandler s a = none) ∧
    (lookupFromA s.TxsFromAddress a = some [] →
      txsFromAHandler s a = none) ∧
    (∀ l, lookupFromA s.TxsFromAddress a = some l → l ≠ [] →
      txsFromAHandler s a = some l) := by
  have hcopy : ∀ l : List MemPoolTx, copyTxSlice l = l := by
    intro l
    induction l with
    | nil => rfl
    | cons t ts ih => rw [copyTxSlice, ih]
  refine ⟨?_, ?_, ?_, ?_, ?_, ?_, ?_⟩
  · intro h
    rw [listTxsHandler, if_pos (by rw [h]; rfl)]
  · intro h
    rw [listTxsHandler, if_pos (by rw [h]; rfl)]
  · intro h
    rw [listTxsHandler,
      if_neg (by simpa [List.length_eq_zero] using h), hcopy]
  · intro h
    rw [listTxsHandler,
      if_neg (by simpa [List.length_eq_zero] using h), hcopy]
  · intro h
    rw [txsFromAHandler, h]
  · intro h
    rw [txsFromAHandler, h]
    rfl
  · intro l hl hne
    rw [txsFromAHandler, hl]
    dsimp only
    rw [if_neg (by simpa [List.length_eq_zero] using hne), hcopy]

/-! ## Witnesses: the theorems instantiated at concrete inputs -/

/-- Witness for C1: the invariants hold at the state reached after the
fixture's add/evict/remove run. -/
theorem pendingPool_invariants_witness : PoolInvariantsOk fixtureState3 :=
  pendingPool_invariants_after_accepted_requests 1 fixtureReqs
    [fixtureState1, fixtureState2, fixtureState3] fixtureState3 rfl
    (List.Mem.tail _ (List.Mem.tail _ (List.Mem.head _)))

/-- Witness for C2: capacity 2, prices 10/20/30 — two txs remain, they
are 20 and 30, and hash 10 is tombstoned. -/
theorem capacity_eviction_witness :
    fixtureEvictionFinal.Transactions.length = 2 ∧
    (fixtureEvictionFinal.Transactions.map MemPoolTx.Hash).Perm
      ((fixtureAdds.drop (fixtureAdds.length - 2)).map
        (fun p => p.2.Hash)) ∧
    (∀ p ∈ fixtureAdds.take (fixtureAdds.length - 2),
      p.2.Hash ∈ fixtureEvictionFinal.DroppedTxs) :=
  capacity_eviction_keeps_highest_gas_price 2 fixtureAdds
    fixtureEvictionFinal (by decide) (by decide) (by decide) rfl

/-- Witness for C4: adding a tx whose hash 7 is tombstoned replies
`false` and changes nothing. -/
theorem duplicate_add_rejected_witness :
    step 5 fixtureTombstoned (.addReq 0 (fixtureTx 7 1 0 99)) =
      some (fixtureTombstoned, false, []) :=
  duplicate_or_tombstoned_add_rejected 5 0 fixtureTombstoned
    (fixtureTx 7 1 0 99) (Or.inr (List.Mem.head _))

/-- Witness for C5: the writer for `peerA` suppresses the tx it
received from `peerA`; the writer for `peerB` frames and emits it. -/
theorem gossip_writer_origin_suppression_witness :
    processMsg "peerA" (ToMessagePack fixtureGossipTx) = none ∧
    processMsg "peerB" (ToMessagePack fixtureGossipTx) =
      some (mkChunk (ToMessagePack fixtureGossipTx)) :=
  gossip_writer_origin_suppression fixtureGossipTx "peerA" "peerB" rfl
    (by decide)

/-- Witness for C7 (amended): an accepted add that evicts tx 6 keeps
the already-tombstoned hash 5 in `DroppedTxs`. -/
theorem droppedTxs_tombstones_witness :
    (5 : Nat) ∈ fixtureFullPoolNext.DroppedTxs :=
  @droppedTxs_tombstones_never_removed 1 fixtureFullPool
    fixtureFullPoolNext true [PubEvent.added (stampTx 3 (fixtureTx 7 3 0 30))]
    (Request.addReq 3 (fixtureTx 7 3 0 30)) rfl 5 (List.Mem.head _)

/-- Witness for C9: an unset period and a period of 2^64 (which
`strconv.ParseUint` rejects as out of the 64-bit range) both default to
1000 ms, a configured 2000 ms period is honoured, a cancellation error
exits silently, any other error signals the supervisor. -/
theorem poller_step_behavior_witness :
    pollTxPoolContentStep [] (.ok ([] : TxPoolContent)) =
      .processAndSleep [] 1000 ∧
    pollTxPoolContentStep
      [("MemPoolPollingPeriod", "18446744073709551616")]
      (.ok ([] : TxPoolContent)) = .processAndSleep [] 1000 ∧
    pollTxPoolContentStep [("MemPoolPollingPeriod", "2000")]
      (.ok ([] : TxPoolContent)) = .processAndSleep [] 2000 ∧
    pollTxPoolContentStep [] (.error "Post failed: context canceled") =
      .exitSilently ∧
    pollTxPoolContentStep [] (.error "connection refused") =
      .signalSupervisorAndExit :=
  ⟨(poller_step_behavior [] [("MemPoolPollingPeriod", "2000")]
      ([] : TxPoolContent) "Post failed: context canceled"
      "connection refused" 2000 (by decide) (by decide) (by decide)
      (by decide)).1,
   (poller_step_behavior
      [("MemPoolPollingPeriod", "18446744073709551616")]
      [("MemPoolPollingPeriod", "2000")]
      ([] : TxPoolContent) "Post failed: context canceled"
      "connection refused" 2000 (by decide) (by decide) (by decide)
      (by decide)).1,
   (poller_step_behavior [] [("MemPoolPollingPeriod", "2000")]
      ([] : TxPoolContent) "Post failed: context canceled"
      "connection refused" 2000 (by decide) (by decide) (by decide)
      (by decide)).2.1,
   (poller_step_behavior [] [("MemPoolPollingPeriod", "2000")]
      ([] : TxPoolContent) "Post failed: context canceled"
      "connection refused" 2000 (by decide) (by decide) (by decide)
      (by decide)).2.2.1,
   (poller_step_behavior [] [("MemPoolPollingPeriod", "2000")]
      ([] : TxPoolContent) "Post failed: context canceled"
      "connection refused" 2000 (by decide) (by decide) (by decide)
      (by decide)).2.2.2⟩

/-- Witness for C10: the nonempty ascending index is returned as-is,
the allocated-but-empty sender entry and the absent sender both reply
`nil`, and the occupied entry is returned. -/
theorem list_reply_semantics_witness :
    listTxsHandler fixtureQueryPool .ASC = some [fixtureTx 9 2 0 50] ∧
    txsFromAHandler fixtureQueryPool 1 = none ∧
    txsFromAHandler fixtureQueryPool 2 = some [fixtureTx 9 2 0 50] ∧
    txsFromAHandler fixtureQueryPool 3 = none :=
  ⟨(list_and_txsFrom_reply_semantics fixtureQueryPool 1).2.2.1
      (List.cons_ne_nil _ _),
   (list_and_txsFrom_reply_semantics fixtureQueryPool 1).2.2.2.2.2.1 rfl,
   (list_and_txsFrom_reply_semantics fixtureQueryPool 2).2.2.2.2.2.2
      [fixtureTx 9 2 0 50] rfl (List.cons_ne_nil _ _),
   (list_and_txsFrom_reply_semantics fixtureQueryPool 3).2.2.2.2.1 rfl⟩

end Harmony
